import Mathlib

/-! A shallow embedding of `src/numsys.c` (libnumsys) and the properties proved of it.

Conventions of the embedding.

* A C character is its byte code, a natural number; a C string is the list of
  its characters before the terminating NUL.  Buffers obtained from `calloc`
  are lists of bytes of the allocated size, and allocation is taken to succeed.
* Machine integers are `Nat`/`Int` with the wrap-around written out
  (`% 2^32` for `unsigned`, `% 2^64` for `unsigned long long`).
* The process-wide `errno` is threaded through every entry point: a call takes
  the value `errno` holds on entry and its outcome carries the value on exit.
* Behaviour the C standard leaves undefined (reading or writing outside an
  object, `llabs(LLONG_MIN)`, converting an out-of-range `double` to
  `long long`) is the distinguished outcome `Outcome.undef`.  For the
  conversion, which an implementation resolves to some `long long` value,
  `numsys_tostring_on` is the same code with that value as a parameter.
* `double` arithmetic is IEEE-754 binary64 with round-to-nearest-even, modelled
  exactly on fractions.
-/

namespace Numsys

/-! ## Platform constants (`<errno.h>`, `<limits.h>`) -/

/-- Value of `EINVAL` (Linux). -/
def EINVAL : Int := 22
/-- Value of `ERANGE` (Linux). -/
def ERANGE : Int := 34
/-- Value of `EOVERFLOW` (Linux). -/
def EOVERFLOW : Int := 75

/-- Largest `long long`. -/
def LLONG_MAX : Int := 2 ^ 63 - 1
/-- Smallest `long long`. -/
def LLONG_MIN : Int := -(2 ^ 63)
/-- Largest `unsigned`. -/
def UINT_MAX : Int := 2 ^ 32 - 1

/-- Outcome of a call: the returned value together with `errno` on exit, or
undefined behaviour. -/
inductive Outcome (α : Type) where
  | ret (val : α) (errno : Int)
  | undef
  deriving DecidableEq, Repr

/-- Byte codes of the characters of a string literal. -/
def cstr (s : String) : List Nat := s.toList.map Char.toNat

/-! ## The number-system record (`numsys.h`) -/

/-- Modelled from the spec: the header `numsys.h` is missing; the record
`numsys_t` holds a base and a sign-representation scheme. The base is an `Int`
so that the check `base < 1` of `inval_base` is meaningful whatever the
signedness of the field. -/
structure numsys_t where
  base : Int
  rep : Nat
  deriving DecidableEq, Repr

/-- Modelled from the spec: flag of the scheme SignedMarker; `numsys.h` is
missing and `numsys.c` only records `15 = NEG_SIGN|SIGN_PLACE|ONES_COMPL|TWOS_COMPL`
and `12 = ONES_COMPL|TWOS_COMPL`. -/
def NEG_SIGN : Nat := 1
/-- Modelled from the spec: flag of the scheme SignDigit (see `NEG_SIGN`). -/
def SIGN_PLACE : Nat := 2
/-- Modelled from the spec: flag of the scheme OnesComplement (see `NEG_SIGN`). -/
def ONES_COMPL : Nat := 4
/-- Modelled from the spec: flag of the scheme TwosComplement (see `NEG_SIGN`). -/
def TWOS_COMPL : Nat := 8

/-! ## Macros and constants of `numsys.c` -/

/-- The string literal `IGNORE`, `"\t\n\v\f\r _"`, with its terminating NUL. -/
def IGNORE : List Nat := [9, 10, 11, 12, 13, 32, 95, 0]
/-- The macro `IGNORE_LEN`. -/
def IGNORE_LEN : Nat := 7

/-- The macro `inval_base`. -/
def inval_base (base : Int) : Bool := decide (base < 1) || decide (base > 36)
/-- The macro `inval_rep`. -/
def inval_rep (rep : Nat) : Bool := (rep &&& 15) == 0
/-- The macro `max_digit`. -/
def max_digit (base : Int) : Int := if base < 11 then base + 47 else base + 54

/-- The string literal `DIGITS`,
`"0123456789aAbBcCdDeEfFgGhHiIjJkKlLmMnNoOpPqQrRsStTuUvVwWxXyYzZ"`, as byte
codes, with its terminating NUL. -/
def DIGITS : List Nat :=
  [48, 49, 50, 51, 52, 53, 54, 55, 56, 57, 97, 65, 98, 66, 99, 67, 100, 68, 101, 69,
    102, 70, 103, 71, 104, 72, 105, 73, 106, 74, 107, 75, 108, 76, 109, 77, 110, 78,
    111, 79, 112, 80, 113, 81, 114, 82, 115, 83, 116, 84, 117, 85, 118, 86, 119, 87,
    120, 88, 121, 89, 122, 90, 0]

/-- The library function `strchr` on a NUL-terminated buffer: the terminator
itself is found when `c` is NUL. -/
def strchr : List Nat → Nat → Bool
  | [], _ => false
  | x :: xs, c => if x = c then true else if x = 0 then false else strchr xs c

/-- The library function `isdigit`. -/
def isdigit (c : Nat) : Bool := decide (48 ≤ c) && decide (c ≤ 57)

/-! ## `ndigits` -/

/-- The `do ... while (num)` loop of `ndigits`; `none` only when the fuel runs out. -/
def ndigits_loop (base : Int) : Nat → Int → Nat → Option Nat
  | 0, _, _ => none
  | fuel + 1, num, count =>
    let num := Int.tdiv num base
    let count := count + 1
    if num ≠ 0 then ndigits_loop base fuel num count else some count

/-- The function `ndigits`: number of digits of `|num|` in the given base. -/
def ndigits (num : Int) (base : Int) (errno : Int) : Outcome Nat :=
  if num = LLONG_MIN then .undef
  else
    let num := |num|
    if base = 1 then
      if num > UINT_MAX then .ret 0 ERANGE else .ret num.toNat errno
    else
      match ndigits_loop base (num.toNat + 1) num 0 with
      | none => .undef
      | some count => .ret count errno

/-! ## `digit_to_num`, `locate_sign`, `valid_chrs` -/

/-- The function `digit_to_num`; the `int` result is converted to `unsigned`. -/
def digit_to_num (c : Nat) : Nat :=
  if isdigit c then (((c : Int) - 48) % 2 ^ 32).toNat
  else if c > 90 then (((c : Int) - 97 + 10) % 2 ^ 32).toNat
  else (((c : Int) - 65 + 10) % 2 ^ 32).toNat

/-- The function `locate_sign`: index of the first character that `strchr`
does not find in `IGNORE`. On a string without such a character the scan
passes the terminator (which `strchr` finds) and leaves the string. -/
def locate_sign : List Nat → Option Nat
  | [] => none
  | c :: cs => if strchr IGNORE c then (locate_sign cs).map (· + 1) else some 0

/-- The `for` loop of `valid_chrs`; `bound` is `MEMSIZE - 2`. -/
def valid_chrs_loop (bound : Nat) : Nat → Nat → Nat → List Nat → List Nat
  | 0, _, _, valid => valid
  | fuel + 1, i, digit_index, valid =>
    if i < bound then
      let valid := valid.set i (DIGITS.getD digit_index 0)
      if i ≥ IGNORE_LEN - 1 + 10 then
        valid_chrs_loop bound fuel (i + 2) (digit_index + 2)
          (valid.set (i + 1) (DIGITS.getD (digit_index + 1) 0))
      else
        valid_chrs_loop bound fuel (i + 1) (digit_index + 1) valid
    else valid

/-- The function `valid_chrs`: the zero-initialised buffer of `MEMSIZE` bytes
after `IGNORE`, the optional `'-'` and the digit symbols have been written. -/
def valid_chrs (sys : numsys_t) : List Nat :=
  let NEG_IS_VAL : Nat := if sys.rep = NEG_SIGN then 1 else 0
  let MEMSIZE : Nat :=
    (IGNORE_LEN + sys.base + (if sys.base > 10 then sys.base - 10 else 0) + NEG_IS_VAL + 2).toNat
  let valid := IGNORE.take IGNORE_LEN ++ List.replicate (MEMSIZE - IGNORE_LEN) 0
  let valid := if sys.rep = NEG_SIGN then valid.set IGNORE_LEN 45 else valid
  valid_chrs_loop (MEMSIZE - 2) MEMSIZE (IGNORE_LEN + NEG_IS_VAL) 0 valid

/-! ## `numsys_tonum` -/

/-- Conversion of an `unsigned long long` value to `long long`. -/
def to_llong (x : Int) : Int :=
  let u := x % 2 ^ 64
  if u ≥ 2 ^ 63 then u - 2 ^ 64 else u

/-- One step of the scan of `numsys_tonum`. -/
inductive Step where
  | exit (errno : Int)
  | next (place_val : Nat) (result : Int)
  deriving DecidableEq, Repr

/-- Body of the `for` loop of `numsys_tonum` at the character `cur` of index
`i`, up to the test of the loop exit. -/
def tonum_body (sys : numsys_t) (valid : List Nat) (SIGN_INDEX : Nat) (IS_SIGNED : Bool)
    (i : Nat) (cur : Nat) (place_val : Nat) (result : Int) : Step :=
  if !strchr valid cur then .exit EINVAL
  else if cur = 45 ∧ (sys.rep ≠ NEG_SIGN ∨ i ≠ SIGN_INDEX) then .exit EINVAL
  else if !strchr IGNORE cur ∧ cur ≠ 45 then
    let digit_val : Nat :=
      if (sys.rep &&& 12) ≠ 0 ∧ IS_SIGNED then
        ((sys.base - (if sys.base ≠ 1 then 1 else 0) - (digit_to_num cur : Int)) % 2 ^ 32).toNat
      else digit_to_num cur
    if digit_val ≠ 0 ∧ (place_val : Int) > Int.tdiv LLONG_MAX (digit_val : Int) then .exit EOVERFLOW
    else
      let to_add : Nat := (digit_val * place_val) % 2 ^ 64
      if result % 2 ^ 64 > (LLONG_MAX - (to_add : Int)) % 2 ^ 64 then .exit EOVERFLOW
      else
        .next ((place_val * sys.base.toNat) % 2 ^ 64) (to_llong (result + to_add))
  else .next place_val result

/-- The `for` loop of `numsys_tonum`, from index `i` downwards, then the
negation of a signed result. Decrementing `i` at zero wraps to `SIZE_MAX`,
and the next read leaves the string. -/
def tonum_loop (NUMSTR : List Nat) (sys : numsys_t) (valid : List Nat) (SIGN_INDEX : Nat)
    (IS_SIGNED : Bool) (errno : Int) : Nat → Nat → Int → Outcome Int
  | i, place_val, result =>
    match NUMSTR.get? i with
    | none => .undef
    | some cur =>
      match tonum_body sys valid SIGN_INDEX IS_SIGNED i cur place_val result with
      | .exit e => .ret 0 e
      | .next place_val result =>
        if i = (if sys.rep ≠ NEG_SIGN then 1 else 0) then
          if IS_SIGNED then
            if result = LLONG_MIN then .ret 0 EOVERFLOW else .ret (-result) errno
          else .ret result errno
        else
          match i with
          | 0 => .undef
          | j + 1 => tonum_loop NUMSTR sys valid SIGN_INDEX IS_SIGNED errno j place_val result

/-- The function `numsys_tonum`; `NUMSTR = none` is the null pointer. -/
def numsys_tonum (NUMSTR : Option (List Nat)) (sys : numsys_t) (errno : Int) : Outcome Int :=
  match NUMSTR with
  | none => .ret 0 EINVAL
  | some s =>
    if inval_base sys.base || inval_rep sys.rep then .ret 0 EINVAL
    else
      let valid := valid_chrs sys
      match locate_sign s with
      | none => .undef
      | some SIGN_INDEX =>
        let IS_SIGNED : Bool :=
          (decide (sys.rep ≠ NEG_SIGN) && decide (s.getD SIGN_INDEX 0 ≠ 48))
            || decide (s.getD SIGN_INDEX 0 = 45)
        let result : Int := if sys.rep = TWOS_COMPL ∧ IS_SIGNED then 1 else 0
        match s.length with
        | 0 => .undef
        | n + 1 => tonum_loop s sys valid SIGN_INDEX IS_SIGNED errno n 1 result

/-! ## Binary64 arithmetic used by `numsys_tostring` -/

/-- Floor of the binary logarithm, by repeated halving. -/
def ilog2_aux : Nat → Nat → Nat
  | 0, _ => 0
  | fuel + 1, n => if n < 2 then 0 else ilog2_aux fuel (n / 2) + 1

/-- Floor of the binary logarithm of a positive natural number. -/
def ilog2 (n : Nat) : Nat := ilog2_aux n n

/-- A finite `double`: sign and magnitude `num / den`. -/
structure Dbl where
  neg : Bool
  num : Nat
  den : Nat
  deriving DecidableEq, Repr

/-- Round the positive fraction `n / d` to the nearest binary64 value, ties to
even: with `e` the binary exponent of `n / d`, the fraction is scaled by
`2 ^ (52 - e)` into `[2^52, 2^53)` and rounded to an integer there. The
exponent range of binary64 is not limiting for the values of this program. -/
def round_nearest_even (n d : Nat) : Nat × Nat :=
  if n = 0 then (0, 1)
  else
    let k : Int := (ilog2 n : Int) - (ilog2 d : Int)
    let e : Int := if d * 2 ^ k.toNat ≤ n * 2 ^ (-k).toNat then k else k - 1
    let s : Int := 52 - e
    let N := n * 2 ^ s.toNat
    let D := d * 2 ^ (-s).toNat
    let Q := N / D
    let R := N % D
    let M := if 2 * R > D ∨ (2 * R = D ∧ Q % 2 = 1) then Q + 1 else Q
    (M * 2 ^ (-s).toNat, 2 ^ s.toNat)

/-- Conversion of a `long long` to `double`. -/
def ll_to_double (x : Int) : Dbl :=
  let r := round_nearest_even x.natAbs 1
  ⟨decide (x < 0), r.1, r.2⟩

/-- The library function `pow` at a positive integer base and a natural
exponent, taken as correctly rounded: exact whenever `base ^ place` is a
`double`. C does not fix the accuracy of `pow` and a library may return a
neighbour of the correctly rounded value where the power is not a `double`;
the evaluations below only meet powers that are. -/
def pow (base : Int) (place : Nat) : Dbl :=
  let r := round_nearest_even (base.natAbs ^ place) 1
  ⟨false, r.1, r.2⟩

/-- Division of two `double` values (the divisor is not zero). -/
def double_div (x y : Dbl) : Dbl :=
  let r := round_nearest_even (x.num * y.den) (x.den * y.num)
  ⟨xor x.neg y.neg, r.1, r.2⟩

/-- Conversion of a `double` to `long long`: truncation toward zero, undefined
when the truncated value is not a `long long`. -/
def double_to_ll (x : Dbl) : Option Int :=
  let t : Int := if x.neg then -((x.num / x.den : Nat) : Int) else ((x.num / x.den : Nat) : Int)
  if LLONG_MIN ≤ t ∧ t ≤ LLONG_MAX then some t else none

/-! ## `numsys_tostring` and `numsys_conv` -/

/-- Conversion of a `long long` to `char`. -/
def to_char (x : Int) : Nat := (x % 256).toNat

/-- The C string held by a buffer: its bytes before the first NUL. -/
def c_str (buf : List Nat) : List Nat := buf.takeWhile (· ≠ 0)

/-- The digit computed by one iteration of the loop of `numsys_tostring` at
the given `place`; `none` is an out-of-range conversion of the quotient to
`long long`. -/
def tostring_digit (sys : numsys_t) (HAS_SIGN_PLACE IS_SIGNED : Bool) (NUM_ABS : Int)
    (place : Nat) : Option Int :=
  let digit_val : Int := NUM_ABS
  let digit_val : Int :=
    if HAS_SIGN_PLACE ∧ IS_SIGNED ∧ sys.rep = TWOS_COMPL then digit_val - 1 else digit_val
  match double_to_ll (double_div (ll_to_double digit_val) (pow sys.base place)) with
  | none => none
  | some digit_val =>
    let digit_val := digit_val - Int.tdiv digit_val sys.base * sys.base
    let digit_val :=
      if HAS_SIGN_PLACE ∧ IS_SIGNED ∧ (sys.rep &&& 12) ≠ 0 then sys.base - digit_val - 1
      else digit_val
    some digit_val

/-- The `for` loop of `numsys_tostring`, from index `i` downwards; `none` is
undefined behaviour (a write outside `result`, or an out-of-range conversion
of the quotient to `long long`). Decrementing `i` at zero wraps to `SIZE_MAX`,
and the next write leaves the buffer. -/
def tostring_loop (sys : numsys_t) (HAS_SIGN_PLACE IS_SIGNED : Bool) (NUM_ABS : Int) :
    Nat → Nat → List Nat → Option (List Nat)
  | i, place, result =>
    match tostring_digit sys HAS_SIGN_PLACE IS_SIGNED NUM_ABS place with
    | none => none
    | some digit_val =>
      if i < result.length then
        let result :=
          result.set i (to_char (digit_val + (if 0 ≤ digit_val ∧ digit_val ≤ 9 then 48 else 55)))
        if i = (if HAS_SIGN_PLACE then 1 else 0) then some result
        else
          match i with
          | 0 => none
          | j + 1 =>
            tostring_loop sys HAS_SIGN_PLACE IS_SIGNED NUM_ABS j ((place + 1) % 2 ^ 32) result
      else none

/-- The function `numsys_tostring`; the result `none` is the null pointer. -/
def numsys_tostring (num : Int) (sys : numsys_t) (errno : Int) : Outcome (Option (List Nat)) :=
  if inval_base sys.base || inval_rep sys.rep then .ret none EINVAL
  else
    match ndigits num sys.base errno with
    | .undef => .undef
    | .ret NCHRS errno =>
      if errno > 0 then .ret none errno
      else
        let IS_SIGNED : Bool := decide (num < 0)
        let HAS_SIGN_PLACE : Bool :=
          ((decide (sys.rep = NEG_SIGN) && decide (num < 0)) || decide (sys.rep ≠ NEG_SIGN))
            && decide (sys.base ≠ 1)
        let HSP : Nat := if HAS_SIGN_PLACE then 1 else 0
        let result := List.replicate ((NCHRS + HSP + 1) % 2 ^ 32) 0
        let NUM_ABS : Int := |num|
        match tostring_loop sys HAS_SIGN_PLACE IS_SIGNED NUM_ABS
            ((((NCHRS : Int) + HSP - 1) % 2 ^ 32).toNat) 0 result with
        | none => .undef
        | some result =>
          let result :=
            if HAS_SIGN_PLACE then
              if IS_SIGNED then
                result.set 0 (if sys.rep = NEG_SIGN then 45 else to_char (max_digit sys.base))
              else result.set 0 48
            else result
          .ret (some (c_str result)) errno

/-- The function `numsys_conv`. -/
def numsys_conv (NUMSTR : Option (List Nat)) (src dest : numsys_t) (errno : Int) :
    Outcome (Option (List Nat)) :=
  match numsys_tonum NUMSTR src errno with
  | .undef => .undef
  | .ret TMP errno => if errno > 0 then .ret none errno else numsys_tostring TMP dest errno

/-! ## `numsys_tostring` with the out-of-range conversion resolved -/

/-- Conversion of a `double` to `long long` on an implementation that resolves
the conversion of a value outside the range of `long long`, which C leaves
undefined, to the `long long` value `oor x` (on x86-64 the conversion
instruction yields `LLONG_MIN`). In range it is `double_to_ll`. -/
def double_to_ll_on (oor : Dbl → Int) (x : Dbl) : Int :=
  match double_to_ll x with
  | some t => t
  | none => to_llong (oor x)

/-- The digit computed by one iteration of the loop of `numsys_tostring` at
the given `place`, the conversion of the quotient being `double_to_ll_on`. -/
def tostring_digit_on (oor : Dbl → Int) (sys : numsys_t) (HAS_SIGN_PLACE IS_SIGNED : Bool)
    (NUM_ABS : Int) (place : Nat) : Int :=
  let digit_val : Int := NUM_ABS
  let digit_val : Int :=
    if HAS_SIGN_PLACE ∧ IS_SIGNED ∧ sys.rep = TWOS_COMPL then digit_val - 1 else digit_val
  let digit_val : Int :=
    double_to_ll_on oor (double_div (ll_to_double digit_val) (pow sys.base place))
  let digit_val := digit_val - Int.tdiv digit_val sys.base * sys.base
  let digit_val :=
    if HAS_SIGN_PLACE ∧ IS_SIGNED ∧ (sys.rep &&& 12) ≠ 0 then sys.base - digit_val - 1
    else digit_val
  digit_val

/-- The `for` loop of `numsys_tostring`, from index `i` downwards, with the
digits of `tostring_digit_on`; `none` is a write outside `result`. -/
def tostring_loop_on (oor : Dbl → Int) (sys : numsys_t) (HAS_SIGN_PLACE IS_SIGNED : Bool)
    (NUM_ABS : Int) : Nat → Nat → List Nat → Option (List Nat)
  | i, place, result =>
    let digit_val := tostring_digit_on oor sys HAS_SIGN_PLACE IS_SIGNED NUM_ABS place
    if i < result.length then
      let result :=
        result.set i (to_char (digit_val + (if 0 ≤ digit_val ∧ digit_val ≤ 9 then 48 else 55)))
      if i = (if HAS_SIGN_PLACE then 1 else 0) then some result
      else
        match i with
        | 0 => none
        | j + 1 =>
          tostring_loop_on oor sys HAS_SIGN_PLACE IS_SIGNED NUM_ABS j ((place + 1) % 2 ^ 32)
            result
    else none

/-- The function `numsys_tostring` on an implementation that resolves the
out-of-range conversion of the quotient to `oor`: the code of `numsys_tostring`
with `tostring_loop_on` for its loop. The result `none` is the null pointer;
`undef` is left for `llabs(LLONG_MIN)` and for writes outside `result`. -/
def numsys_tostring_on (oor : Dbl → Int) (num : Int) (sys : numsys_t) (errno : Int) :
    Outcome (Option (List Nat)) :=
  if inval_base sys.base || inval_rep sys.rep then .ret none EINVAL
  else
    match ndigits num sys.base errno with
    | .undef => .undef
    | .ret NCHRS errno =>
      if errno > 0 then .ret none errno
      else
        let IS_SIGNED : Bool := decide (num < 0)
        let HAS_SIGN_PLACE : Bool :=
          ((decide (sys.rep = NEG_SIGN) && decide (num < 0)) || decide (sys.rep ≠ NEG_SIGN))
            && decide (sys.base ≠ 1)
        let HSP : Nat := if HAS_SIGN_PLACE then 1 else 0
        let result := List.replicate ((NCHRS + HSP + 1) % 2 ^ 32) 0
        let NUM_ABS : Int := |num|
        match tostring_loop_on oor sys HAS_SIGN_PLACE IS_SIGNED NUM_ABS
            ((((NCHRS : Int) + HSP - 1) % 2 ^ 32).toNat) 0 result with
        | none => .undef
        | some result =>
          let result :=
            if HAS_SIGN_PLACE then
              if IS_SIGNED then
                result.set 0 (if sys.rep = NEG_SIGN then 45 else to_char (max_digit sys.base))
              else result.set 0 48
            else result
          .ret (some (c_str result)) errno

/-! ## Specification-level vocabulary and auxiliary definitions of the proofs -/

/-- Digit value of a character: `'0'`-`'9'` stand for 0-9 and the letters of
either case for 10-35. -/
def digit_value (c : Nat) : Option Nat :=
  if 48 ≤ c ∧ c ≤ 57 then some (c - 48)
  else if 65 ≤ c ∧ c ≤ 90 then some (c - 55)
  else if 97 ≤ c ∧ c ≤ 122 then some (c - 87)
  else none

/-- Separator characters: tab, newline, vertical tab, form feed, carriage
return, space and underscore. -/
def is_separator (c : Nat) : Bool := decide (c ∈ [9, 10, 11, 12, 13, 32, 95])

/-- A digit character of the base: a digit symbol of value below the base. -/
def is_digit_of (b : Nat) (c : Nat) : Bool :=
  match digit_value c with
  | some d => decide (d < b)
  | none => false

/-- Positional value of a text of digit characters, most significant first:
the sum of `digit_i * b ^ i`, the last character having `i = 0`. -/
def positional_value (b : Nat) : List Nat → Nat
  | [] => 0
  | c :: cs => (digit_value c).getD 0 * b ^ cs.length + positional_value b cs

/-- The digit symbol of value `base` that the pairing step of the loop of
`valid_chrs` writes after the digit symbols of the base: `'9'` for base 9
under `NEG_SIGN`, the lower-case letter of value `base` for the bases 10 to
35 under the other schemes. -/
def stray_symbol (b : Nat) (neg : Bool) : Option Nat :=
  if neg then (if b = 9 then some 57 else none)
  else if 10 ≤ b ∧ b ≤ 35 then some (87 + b) else none

/-- The characters that `strchr` finds in the buffer built by `valid_chrs`:
the terminator, the separators, `'-'` under `NEG_SIGN`, the digit symbols of
value below the base, and the stray symbol. -/
def accepted (b : Nat) (neg : Bool) (c : Nat) : Bool :=
  decide (c = 0) || is_separator c || (neg && decide (c = 45)) || is_digit_of b c
    || decide (stray_symbol b neg = some c)

/-- Number of characters of `DIGITS` consumed by the loop of `valid_chrs`:
the final value of `digit_index`. -/
def digits_written (bound : Nat) : Nat → Nat → Nat → Nat
  | 0, _, digit_index => digit_index
  | fuel + 1, i, digit_index =>
    if i < bound then
      if i ≥ IGNORE_LEN - 1 + 10 then digits_written bound fuel (i + 2) (digit_index + 2)
      else digits_written bound fuel (i + 1) (digit_index + 1)
    else digit_index

/-- The first `n` characters of `DIGITS`, continued by NUL beyond its end. -/
def written (n : Nat) : List Nat := (List.range n).map (fun j => DIGITS.getD j 0)

/-- Position of a digit symbol in `DIGITS`; 62 for any other character. -/
def digit_index (c : Nat) : Nat :=
  if 48 ≤ c ∧ c ≤ 57 then c - 48
  else if 97 ≤ c ∧ c ≤ 122 then 10 + 2 * (c - 97)
  else if 65 ≤ c ∧ c ≤ 90 then 11 + 2 * (c - 65)
  else 62

/-- Closed form of `digits_written` for the loop bounds of `valid_chrs`. -/
def digits_count (n : Nat) (neg : Bool) : Nat :=
  if neg then (if n ≤ 8 then n else if n = 9 then 10 else 2 * n - 10)
  else (if n ≤ 9 then n else 2 * n - 9)

/-- Index at which the loop of `numsys_tonum` stops. -/
def stop_index (sys : numsys_t) : Nat := if sys.rep ≠ NEG_SIGN then 1 else 0

/-- Right-to-left scan by `tonum_body` of the characters `cs`, the first of
which stands at index `k` of the text. -/
def scan_from (sys : numsys_t) (valid : List Nat) (SIGN_INDEX : Nat) (IS_SIGNED : Bool) :
    Nat → List Nat → Nat → Int → Step
  | _, [], place_val, result => .next place_val result
  | k, c :: cs, place_val, result =>
    match scan_from sys valid SIGN_INDEX IS_SIGNED (k + 1) cs place_val result with
    | .exit e => .exit e
    | .next place_val result => tonum_body sys valid SIGN_INDEX IS_SIGNED k c place_val result

/-- What `numsys_tonum` returns once the scan is over. -/
def finish (IS_SIGNED : Bool) (errno : Int) : Step → Outcome Int
  | .exit e => .ret 0 e
  | .next _ result =>
    if IS_SIGNED then
      if result = LLONG_MIN then .ret 0 EOVERFLOW else .ret (-result) errno
    else .ret result errno

/-- The arithmetic of `tonum_body` on a digit of value `dv`. -/
def digit_step (b : Int) (dv pv : Nat) (r : Int) : Step :=
  if dv ≠ 0 ∧ (pv : Int) > Int.tdiv LLONG_MAX (dv : Int) then .exit EOVERFLOW
  else if r % 2 ^ 64 > (LLONG_MAX - (((dv * pv) % 2 ^ 64 : Nat) : Int)) % 2 ^ 64 then
    .exit EOVERFLOW
  else .next ((pv * b.toNat) % 2 ^ 64) (to_llong (r + (((dv * pv) % 2 ^ 64 : Nat) : Int)))

/-- The digit value `tonum_body` gives to a digit character. -/
def body_digit_val (sys : numsys_t) (sg : Bool) (c : Nat) : Nat :=
  if (sys.rep &&& 12) ≠ 0 ∧ sg then
    ((sys.base - (if sys.base ≠ 1 then 1 else 0) - (digit_to_num c : Int)) % 2 ^ 32).toNat
  else digit_to_num c

/-- Positional value of a text under a digit valuation `g`, most significant
character first. -/
def weighted_value (g : Nat → Nat) (b : Nat) : List Nat → Nat
  | [] => 0
  | c :: cs => g c * b ^ cs.length + weighted_value g b cs

/-- The conversion as the specification words it, `errno` being clear on
entry: `format(parse(text, src), dest)`, a failure of the parse being
propagated unchanged without formatting. -/
def convert_spec (text : Option (List Nat)) (src dest : numsys_t) :
    Outcome (Option (List Nat)) :=
  match numsys_tonum text src 0 with
  | .undef => .undef
  | .ret v e => if e = 0 then numsys_tostring v dest 0 else .ret none e

/-! ## The character set built by `valid_chrs` -/

theorem strchr_mem : ∀ (l : List Nat) (c : Nat), strchr l c = true → c ∈ l := by
  intro l c
  induction l with
  | nil => simp [strchr]
  | cons x xs ih =>
    intro h
    unfold strchr at h
    by_cases hx : x = c
    · simp [hx]
    · rw [if_neg hx] at h
      by_cases h0 : x = 0
      · simp [h0] at h
      · rw [if_neg h0] at h
        exact List.mem_cons_of_mem _ (ih h)

theorem written_succ (n : Nat) : written (n + 1) = written n ++ [DIGITS.getD n 0] := by
  simp [written, List.range_succ]

theorem written_length (n : Nat) : (written n).length = n := by
  simp [written]

theorem set_at_end (A : List Nat) (p : Nat) (x : Nat) (i : Nat) (hi : i = A.length) :
    (A ++ List.replicate (p + 1) 0).set i x = (A ++ [x]) ++ List.replicate p 0 := by
  subst hi
  rw [List.set_append_right _ _ (le_refl _), Nat.sub_self, List.replicate_succ, List.set_cons_zero]
  simp

/-- The loop of `valid_chrs` extends the characters already written by those
of `DIGITS` up to `digits_written`. -/
theorem valid_chrs_loop_closed (bound : Nat) :
    ∀ (fuel i di : Nat) (pre : List Nat) (pad : Nat),
      i = pre.length + di → (i < bound → bound - i + 1 ≤ pad) →
      di ≤ digits_written bound fuel i di ∧ digits_written bound fuel i di ≤ di + pad ∧
      valid_chrs_loop bound fuel i di (pre ++ written di ++ List.replicate pad 0)
        = pre ++ written (digits_written bound fuel i di)
            ++ List.replicate (pad + di - digits_written bound fuel i di) 0 := by
  intro fuel
  induction fuel with
  | zero =>
    intro i di pre pad _ _
    simp [valid_chrs_loop, digits_written]
  | succ fuel ih =>
    intro i di pre pad hi hpad
    unfold valid_chrs_loop digits_written
    by_cases hlt : i < bound
    · rw [if_pos hlt, if_pos hlt]
      have hp := hpad hlt
      obtain ⟨p1, rfl⟩ : ∃ p1, pad = p1 + 1 := ⟨pad - 1, by omega⟩
      have hlen : i = (pre ++ written di).length := by
        rw [List.length_append, written_length]; exact hi
      have hset1 : (pre ++ written di ++ List.replicate (p1 + 1) 0).set i (DIGITS.getD di 0)
          = pre ++ written (di + 1) ++ List.replicate p1 0 := by
        rw [set_at_end _ _ _ _ hlen, written_succ, List.append_assoc pre]
      simp only []
      rw [hset1]
      by_cases h16 : i ≥ IGNORE_LEN - 1 + 10
      · rw [if_pos h16, if_pos h16]
        obtain ⟨p2, rfl⟩ : ∃ p2, p1 = p2 + 1 := ⟨p1 - 1, by omega⟩
        have hlen2 : i + 1 = (pre ++ written (di + 1)).length := by
          rw [List.length_append, written_length]; omega
        have hset2 : (pre ++ written (di + 1) ++ List.replicate (p2 + 1) 0).set (i + 1)
            (DIGITS.getD (di + 1) 0) = pre ++ written (di + 2) ++ List.replicate p2 0 := by
          rw [set_at_end _ _ _ _ hlen2, written_succ (di + 1), List.append_assoc pre]
        rw [hset2]
        obtain ⟨h1, h2, h3⟩ := ih (i + 2) (di + 2) pre p2 (by omega) (by omega)
        refine ⟨by omega, by omega, ?_⟩
        rw [h3]
        congr 2
        omega
      · rw [if_neg h16, if_neg h16]
        obtain ⟨h1, h2, h3⟩ := ih (i + 1) (di + 1) pre p1 (by omega) (by omega)
        refine ⟨by omega, by omega, ?_⟩
        rw [h3]
        congr 2
        omega
    · rw [if_neg hlt, if_neg hlt]
      simp

theorem digits_written_eq :
    ∀ n : Nat, n < 37 → ∀ neg : Bool,
      digits_written (7 + n + (n - 10) + (if neg then 1 else 0))
        (9 + n + (n - 10) + (if neg then 1 else 0)) (7 + (if neg then 1 else 0)) 0
        = digits_count n neg := by
  decide

/-- Closed form of the buffer built by `valid_chrs`. -/
theorem valid_chrs_closed (n : Nat) (h1 : 1 ≤ n) (h36 : n ≤ 36) (rep : Nat) :
    ∃ P, 1 ≤ P ∧ valid_chrs ⟨(n : Int), rep⟩
      = (IGNORE.take 7 ++ (if rep = NEG_SIGN then [45] else []))
          ++ written (digits_count n (decide (rep = NEG_SIGN))) ++ List.replicate P 0 := by
  have hM : ∀ k : Nat, ((IGNORE_LEN : Int) + (n : Int) + (if (n : Int) > 10 then (n : Int) - 10 else 0)
      + ((k : Nat) : Int) + 2).toNat = 9 + n + (n - 10) + k := by
    intro k
    have : (IGNORE_LEN : Int) = 7 := rfl
    rw [this]
    split <;> omega
  unfold valid_chrs
  simp only []
  rw [hM]
  by_cases hneg : rep = NEG_SIGN
  · simp only [hneg, if_true, decide_True]
    have hinit : ((IGNORE.take IGNORE_LEN ++ List.replicate (9 + n + (n - 10) + 1 - IGNORE_LEN) 0).set
        IGNORE_LEN 45) = (IGNORE.take 7 ++ [45]) ++ written 0 ++ List.replicate (n + (n - 10) + 2) 0 := by
      have e : 9 + n + (n - 10) + 1 - IGNORE_LEN = (n + (n - 10) + 2) + 1 := by
        have : IGNORE_LEN = 7 := rfl
        omega
      rw [e, set_at_end _ _ _ _ (by decide)]
      simp [written, IGNORE_LEN]
    rw [hinit]
    obtain ⟨k1, k2, k3⟩ := valid_chrs_loop_closed (9 + n + (n - 10) + 1 - 2) (9 + n + (n - 10) + 1)
      (IGNORE_LEN + 1) 0 (IGNORE.take 7 ++ [45]) (n + (n - 10) + 2) (by decide)
      (by intro _; have : IGNORE_LEN = 7 := rfl; omega)
    have hK := digits_written_eq n (by omega) true
    simp only [if_true] at hK
    have e1 : 9 + n + (n - 10) + 1 - 2 = 7 + n + (n - 10) + 1 := by omega
    have e2 : IGNORE_LEN + 1 = 7 + 1 := rfl
    rw [e1, e2, hK] at k1 k2 k3
    rw [e1, e2, k3]
    refine ⟨n + (n - 10) + 2 + 0 - digits_count n true, ?_, rfl⟩
    unfold digits_count
    simp only [if_true]
    split
    · omega
    · split <;> omega
  · simp only [hneg, if_false, decide_False]
    have hinit : (IGNORE.take IGNORE_LEN ++ List.replicate (9 + n + (n - 10) + 0 - IGNORE_LEN) 0)
        = (IGNORE.take 7 ++ []) ++ written 0 ++ List.replicate (n + (n - 10) + 2) 0 := by
      have e : 9 + n + (n - 10) + 0 - IGNORE_LEN = n + (n - 10) + 2 := by
        have : IGNORE_LEN = 7 := rfl
        omega
      rw [e]
      simp [written, IGNORE_LEN]
    rw [hinit]
    obtain ⟨k1, k2, k3⟩ := valid_chrs_loop_closed (9 + n + (n - 10) + 0 - 2) (9 + n + (n - 10) + 0)
      (IGNORE_LEN + 0) 0 (IGNORE.take 7 ++ []) (n + (n - 10) + 2) (by decide)
      (by intro _; have : IGNORE_LEN = 7 := rfl; omega)
    have hK := digits_written_eq n (by omega) false
    simp only [Bool.false_eq_true, if_false] at hK
    have e1 : 9 + n + (n - 10) + 0 - 2 = 7 + n + (n - 10) + 0 := by omega
    have e2 : IGNORE_LEN + 0 = 7 + 0 := rfl
    rw [e1, e2, hK] at k1 k2 k3
    rw [e1, e2, k3]
    refine ⟨n + (n - 10) + 2 + 0 - digits_count n false, ?_, rfl⟩
    unfold digits_count
    simp only [Bool.false_eq_true, if_false]
    split <;> omega

theorem strchr_append_nz (A B : List Nat) (c : Nat) (hA : ∀ x ∈ A, x ≠ 0) :
    strchr (A ++ B) c = (decide (c ∈ A) || strchr B c) := by
  induction A with
  | nil => simp
  | cons a A ih =>
    have ha : a ≠ 0 := hA a (List.mem_cons_self _ _)
    have ih1 := ih (fun x hx => hA x (List.mem_cons_of_mem _ hx))
    rw [List.cons_append, strchr]
    by_cases hac : a = c
    · simp [hac]
    · rw [if_neg hac, if_neg ha, ih1]
      have : ¬ c = a := fun h => hac h.symm
      simp [this]

theorem strchr_zeros (P : Nat) (hP : 1 ≤ P) (c : Nat) :
    strchr (List.replicate P 0) c = decide (c = 0) := by
  obtain ⟨p, rfl⟩ : ∃ p, P = p + 1 := ⟨P - 1, by omega⟩
  rw [List.replicate_succ, strchr]
  by_cases h : 0 = c
  · simp [h.symm]
  · have : ¬ c = 0 := fun h1 => h h1.symm
    simp [h, this]

theorem DIGITS_index :
    (∀ j : Nat, j < 62 → DIGITS.getD j 0 ≠ 0 ∧ digit_index (DIGITS.getD j 0) = j)
      ∧ DIGITS.getD 62 0 = 0
      ∧ (∀ c : Nat, c < 123 → digit_index c < 62 → DIGITS.getD (digit_index c) 0 = c) := by
  decide

theorem digit_index_le (c : Nat) : digit_index c ≤ 62 := by
  unfold digit_index
  split_ifs <;> omega

theorem mem_written (K : Nat) (hK : K ≤ 62) (c : Nat) : c ∈ written K ↔ digit_index c < K := by
  unfold written
  rw [List.mem_map]
  constructor
  · rintro ⟨j, hj, rfl⟩
    rw [List.mem_range] at hj
    rw [(DIGITS_index.1 j (by omega)).2]
    exact hj
  · intro h
    have hc : c < 123 := by
      by_contra hc
      unfold digit_index at h
      rw [if_neg (by omega), if_neg (by omega), if_neg (by omega)] at h
      omega
    exact ⟨digit_index c, List.mem_range.mpr h, DIGITS_index.2.2 c hc (by omega)⟩

theorem written_nz (K : Nat) (hK : K ≤ 62) : ∀ x ∈ written K, x ≠ 0 := by
  intro x hx
  unfold written at hx
  rw [List.mem_map] at hx
  obtain ⟨j, hj, rfl⟩ := hx
  rw [List.mem_range] at hj
  exact (DIGITS_index.1 j (by omega)).1

/-- What `strchr` finds in the digits written by `valid_chrs` and the zeros
behind them. -/
theorem strchr_written (K P : Nat) (hK : K ≤ 63) (hP : 1 ≤ P) (c : Nat) :
    strchr (written K ++ List.replicate P 0) c
      = (decide (digit_index c < K ∧ digit_index c < 62) || decide (c = 0)) := by
  have hle := digit_index_le c
  by_cases h62 : K ≤ 62
  · rw [strchr_append_nz _ _ _ (written_nz K h62), strchr_zeros P hP]
    have := mem_written K h62 c
    by_cases hm : c ∈ written K
    · have h1 := this.mp hm
      have h2 : digit_index c < K ∧ digit_index c < 62 := ⟨h1, by omega⟩
      simp [hm, h2]
    · have h2 : ¬ (digit_index c < K ∧ digit_index c < 62) := fun h => hm (this.mpr h.1)
      simp [hm, h2]
  · have hK63 : K = 63 := by omega
    subst hK63
    rw [written_succ, DIGITS_index.2.1, List.append_assoc]
    have e : [0] ++ List.replicate P 0 = List.replicate (P + 1) 0 := by
      rw [List.replicate_succ]; rfl
    rw [e, strchr_append_nz _ _ _ (written_nz 62 (le_refl _)), strchr_zeros (P + 1) (by omega)]
    have := mem_written 62 (le_refl _) c
    by_cases hm : c ∈ written 62
    · have h1 := this.mp hm
      have h2 : digit_index c < 63 ∧ digit_index c < 62 := ⟨by omega, h1⟩
      simp [hm, h2]
    · have h2 : ¬ (digit_index c < 63 ∧ digit_index c < 62) := fun h => hm (this.mpr h.2)
      simp [hm, h2]

theorem digits_count_le (n : Nat) (h36 : n ≤ 36) (neg : Bool) : digits_count n neg ≤ 63 := by
  unfold digits_count
  split_ifs <;> omega

theorem mem_pre (rep c : Nat) :
    decide (c ∈ IGNORE.take 7 ++ (if rep = NEG_SIGN then [45] else []))
      = (is_separator c || (decide (rep = NEG_SIGN) && decide (c = 45))) := by
  by_cases h : rep = NEG_SIGN <;> simp [h, is_separator, IGNORE, Bool.or_assoc]

theorem pre_nz (rep : Nat) :
    ∀ x ∈ IGNORE.take 7 ++ (if rep = NEG_SIGN then [45] else []), x ≠ 0 := by
  by_cases h : rep = NEG_SIGN <;> simp [h, IGNORE]

/-- Position against count: the digit symbols among the first `digits_count`
characters of `DIGITS` are those of value below the base and the stray symbol. -/
theorem digit_index_lt_count (n : Nat) (h1 : 1 ≤ n) (h36 : n ≤ 36) (neg : Bool) (c : Nat) :
    decide (digit_index c < digits_count n neg ∧ digit_index c < 62)
      = (is_digit_of n c || decide (stray_symbol n neg = some c)) := by
  have key : (digit_index c < digits_count n neg ∧ digit_index c < 62)
      ↔ (is_digit_of n c = true ∨ stray_symbol n neg = some c) := by
    unfold digit_index digits_count is_digit_of digit_value stray_symbol
    cases neg
    · simp only [Bool.false_eq_true, if_false]
      split_ifs <;> simp <;> omega
    · simp only [if_true]
      split_ifs <;> simp <;> omega
  rw [Bool.eq_iff_iff]
  simp only [decide_eq_true_eq, Bool.or_eq_true]
  exact key

/-- The buffer built by `valid_chrs` holds exactly the `accepted` characters. -/
theorem strchr_valid (b : Int) (h1 : 1 ≤ b) (h36 : b ≤ 36) (rep : Nat) (c : Nat) :
    strchr (valid_chrs ⟨b, rep⟩) c = accepted b.toNat (decide (rep = NEG_SIGN)) c := by
  obtain ⟨n, rfl⟩ := Int.eq_ofNat_of_zero_le (by omega : 0 ≤ b)
  have hn1 : 1 ≤ n := by omega
  have hn36 : n ≤ 36 := by omega
  obtain ⟨P, hP, hclosed⟩ := valid_chrs_closed n hn1 hn36 rep
  rw [hclosed, List.append_assoc, strchr_append_nz _ _ _ (pre_nz rep),
    strchr_written _ _ (digits_count_le n hn36 _) hP, mem_pre,
    digit_index_lt_count n hn1 hn36]
  simp only [Int.toNat_ofNat, accepted]
  cases is_separator c <;> cases decide (rep = NEG_SIGN) <;> cases decide (c = 45)
    <;> cases is_digit_of n c <;> cases decide (stray_symbol n _ = some c)
    <;> cases decide (c = 0) <;> rfl

/-! ## The scan of `numsys_tonum` as a fold over the text -/

theorem scan_from_append (sys : numsys_t) (valid : List Nat) (si : Nat) (sg : Bool) :
    ∀ (a b : List Nat) (k pv : Nat) (r : Int),
      scan_from sys valid si sg k (a ++ b) pv r =
        match scan_from sys valid si sg (k + a.length) b pv r with
        | .exit e => .exit e
        | .next pv1 r1 => scan_from sys valid si sg k a pv1 r1 := by
  intro a
  induction a with
  | nil =>
    intro b k pv r
    simp only [List.nil_append, List.length_nil, Nat.add_zero]
    cases scan_from sys valid si sg k b pv r <;> simp [scan_from]
  | cons x xs ih =>
    intro b k pv r
    rw [List.cons_append, scan_from, ih b (k + 1) pv r, List.length_cons]
    have e : k + 1 + xs.length = k + (xs.length + 1) := by omega
    rw [e]
    cases scan_from sys valid si sg (k + (xs.length + 1)) b pv r <;> simp [scan_from]

theorem tonum_loop_eq (s : List Nat) (sys : numsys_t) (valid : List Nat) (si : Nat) (sg : Bool)
    (errno : Int) :
    ∀ (i : Nat), i < s.length → stop_index sys ≤ i → ∀ (pv : Nat) (r : Int),
      tonum_loop s sys valid si sg errno i pv r =
        finish sg errno
          (scan_from sys valid si sg (stop_index sys) ((s.take (i + 1)).drop (stop_index sys)) pv r) := by
  intro i
  induction i with
  | zero =>
    intro hlt hstop pv r
    have hs0 : stop_index sys = 0 := by omega
    have hs0' : (if sys.rep ≠ NEG_SIGN then 1 else 0) = 0 := hs0
    obtain ⟨c, cs, rfl⟩ := List.exists_cons_of_length_pos hlt
    rw [tonum_loop, hs0]
    simp only [List.get?_cons_zero, List.take_succ_cons, List.take_zero, List.drop_zero,
      scan_from, hs0']
    cases tonum_body sys valid si sg 0 c pv r <;> simp [finish]
  | succ j ih =>
    intro hlt hstop pv r
    have hget : s.get? (j + 1) = some (s.get ⟨j + 1, hlt⟩) := List.get?_eq_get hlt
    have htake : s.take (j + 1 + 1) = s.take (j + 1) ++ [s.get ⟨j + 1, hlt⟩] := by
      rw [List.take_succ, ← List.get?_eq_getElem?, hget]; rfl
    have hlen : (s.take (j + 1)).length = j + 1 := by
      rw [List.length_take]; omega
    rw [tonum_loop, hget, htake]
    simp only []
    rw [List.drop_append_of_le_length (by omega), scan_from_append]
    have hidx : stop_index sys + ((s.take (j + 1)).drop (stop_index sys)).length = j + 1 := by
      rw [List.length_drop, hlen]; omega
    rw [hidx]
    simp only [scan_from]
    cases hb : tonum_body sys valid si sg (j + 1) (s.get ⟨j + 1, hlt⟩) pv r with
    | exit e => simp [finish]
    | next pv1 r1 =>
      simp only []
      by_cases hst : j + 1 = stop_index sys
      · have hst' : j + 1 = (if sys.rep ≠ NEG_SIGN then 1 else 0) := hst
        rw [if_pos hst']
        have : (s.take (j + 1)).drop (stop_index sys) = [] := by
          rw [List.drop_eq_nil_iff]; omega
        rw [this]
        simp [scan_from, finish]
      · have hst' : ¬ j + 1 = (if sys.rep ≠ NEG_SIGN then 1 else 0) := hst
        rw [if_neg hst']
        exact ih (by omega) (by omega) pv1 r1

/-- The entry point `numsys_tonum` on a text whose scan is defined. -/
theorem numsys_tonum_eq (s : List Nat) (sys : numsys_t) (errno : Int) (si : Nat)
    (hb : inval_base sys.base = false) (hr : inval_rep sys.rep = false)
    (hsi : locate_sign s = some si) (hlen : stop_index sys < s.length) :
    numsys_tonum (some s) sys errno =
      finish ((decide (sys.rep ≠ NEG_SIGN) && decide (s.getD si 0 ≠ 48)) || decide (s.getD si 0 = 45))
        errno
        (scan_from sys (valid_chrs sys) si
          ((decide (sys.rep ≠ NEG_SIGN) && decide (s.getD si 0 ≠ 48)) || decide (s.getD si 0 = 45))
          (stop_index sys) (s.drop (stop_index sys)) 1
          (if sys.rep = TWOS_COMPL ∧
              ((decide (sys.rep ≠ NEG_SIGN) && decide (s.getD si 0 ≠ 48))
                || decide (s.getD si 0 = 45)) = true then 1 else 0)) := by
  unfold numsys_tonum
  simp only [hb, hr, hsi, Bool.or_self, Bool.false_eq_true, if_false]
  obtain ⟨n, hn⟩ : ∃ n, s.length = n + 1 := ⟨s.length - 1, by omega⟩
  rw [hn]
  simp only []
  rw [tonum_loop_eq s sys _ si _ errno n (by omega) (by omega)]
  rw [List.take_of_length_le (by omega)]

/-! ## One step of the scan -/

theorem body_invalid (sys : numsys_t) (valid : List Nat) (si : Nat) (sg : Bool) (i c pv : Nat)
    (r : Int) (h : strchr valid c = false) :
    tonum_body sys valid si sg i c pv r = .exit EINVAL := by
  simp [tonum_body, h]

theorem body_sep (sys : numsys_t) (valid : List Nat) (si : Nat) (sg : Bool) (i c pv : Nat)
    (r : Int) (hv : strchr valid c = true) (hs : strchr IGNORE c = true) (hm : c ≠ 45) :
    tonum_body sys valid si sg i c pv r = .next pv r := by
  simp [tonum_body, hv, hs, hm]

theorem body_minus (sys : numsys_t) (valid : List Nat) (si : Nat) (sg : Bool) (i pv : Nat)
    (r : Int) (hv : strchr valid 45 = true) (hrep : sys.rep = NEG_SIGN) (hi : i = si) :
    tonum_body sys valid si sg i 45 pv r = .next pv r := by
  simp [tonum_body, hv, hrep, hi]

theorem body_digit (sys : numsys_t) (valid : List Nat) (si : Nat) (sg : Bool) (i c pv : Nat)
    (r : Int) (hv : strchr valid c = true) (hs : strchr IGNORE c = false) (hm : c ≠ 45) :
    tonum_body sys valid si sg i c pv r = digit_step sys.base (body_digit_val sys sg c) pv r := by
  unfold tonum_body digit_step body_digit_val
  rw [if_neg (by simp [hv]), if_neg (fun h => hm h.1), if_pos (by simp [hs, hm])]

theorem digit_step_exit (b : Int) (dv pv : Nat) (r : Int) (e : Int)
    (h : digit_step b dv pv r = .exit e) : e = EINVAL ∨ e = EOVERFLOW := by
  unfold digit_step at h
  split at h
  · injection h with h; exact Or.inr h.symm
  · split at h
    · injection h with h; exact Or.inr h.symm
    · cases h

theorem body_exit (sys : numsys_t) (valid : List Nat) (si : Nat) (sg : Bool) (i c pv : Nat)
    (r : Int) (e : Int) (h : tonum_body sys valid si sg i c pv r = .exit e) :
    e = EINVAL ∨ e = EOVERFLOW := by
  unfold tonum_body at h
  simp only [] at h
  split_ifs at h <;> first
    | (injection h with h; exact Or.inl h.symm)
    | (injection h with h; exact Or.inr h.symm)

theorem to_llong_of_range (x : Int) (h0 : 0 ≤ x) (h1 : x ≤ LLONG_MAX) : to_llong x = x := by
  unfold LLONG_MAX at h1
  unfold to_llong
  have : x % 2 ^ 64 = x := Int.emod_eq_of_lt h0 (by omega)
  simp only [this]
  rw [if_neg (by omega)]

/-- A digit whose weighted value keeps the sum within `LLONG_MAX` is added,
and the place value is multiplied by the base. -/
theorem digit_step_ok (b dv k : Nat) (pv : Nat) (r : Int)
    (hpv : pv = b ^ k % 2 ^ 64) (hr : 0 ≤ r)
    (hsum : r + ((dv * b ^ k : Nat) : Int) ≤ LLONG_MAX) :
    digit_step (b : Int) dv pv r = .next (b ^ (k + 1) % 2 ^ 64) (r + ((dv * b ^ k : Nat) : Int)) := by
  have hL : LLONG_MAX = 9223372036854775807 := by decide
  have hnext : (pv * (b : Int).toNat) % 2 ^ 64 = b ^ (k + 1) % 2 ^ 64 := by
    rw [hpv, Int.toNat_ofNat, Nat.mod_mul_mod, ← pow_succ]
  rcases Nat.eq_zero_or_pos dv with h0 | hpos
  · subst h0
    unfold digit_step
    rw [if_neg (by simp)]
    simp only [Nat.zero_mul, Nat.zero_mod, Nat.cast_zero, Int.sub_zero, Int.add_zero] at hsum ⊢
    have e1 : r % 2 ^ 64 = r := Int.emod_eq_of_lt hr (by omega)
    have e2 : LLONG_MAX % 2 ^ 64 = LLONG_MAX := by rw [hL]; decide
    rw [e1, e2, if_neg (by omega), hnext, to_llong_of_range r hr hsum]
  · have hle : ((dv * b ^ k : Nat) : Int) ≤ LLONG_MAX := by omega
    have hle' : dv * b ^ k ≤ 9223372036854775807 := by
      rw [hL] at hle; exact_mod_cast hle
    have hbk : b ^ k ≤ dv * b ^ k := Nat.le_mul_of_pos_left _ hpos
    have hpv' : pv = b ^ k := by
      rw [hpv]; exact Nat.mod_eq_of_lt (by omega)
    have hta : (dv * pv) % 2 ^ 64 = dv * b ^ k := by
      rw [hpv']; exact Nat.mod_eq_of_lt (by omega)
    unfold digit_step
    have hdiv : ¬ ((pv : Int) > Int.tdiv LLONG_MAX (dv : Int)) := by
      rw [Int.tdiv_eq_ediv (by rw [hL]; decide) (by omega)]
      have : (pv : Int) ≤ LLONG_MAX / (dv : Int) := by
        apply Int.le_ediv_of_mul_le (by exact_mod_cast hpos)
        rw [hpv', hL]
        have : b ^ k * dv ≤ 9223372036854775807 := by rw [Nat.mul_comm]; exact hle'
        exact_mod_cast this
      omega
    rw [if_neg (fun h => hdiv h.2), hta, hnext]
    have e1 : r % 2 ^ 64 = r := Int.emod_eq_of_lt hr (by omega)
    have e2 : (LLONG_MAX - ((dv * b ^ k : Nat) : Int)) % 2 ^ 64
        = LLONG_MAX - ((dv * b ^ k : Nat) : Int) :=
      Int.emod_eq_of_lt (by omega) (by omega)
    rw [e1, e2, if_neg (by omega), to_llong_of_range _ (by omega) hsum]

theorem positional_value_eq (b : Nat) (cs : List Nat) :
    positional_value b cs = weighted_value (fun c => (digit_value c).getD 0) b cs := by
  induction cs with
  | nil => rfl
  | cons c cs ih => simp [positional_value, weighted_value, ih]

/-- Scan of a run of digit characters whose weighted value fits: the result
grows by that value and the place value by `b ^ length`. -/
theorem scan_from_digits (sys : numsys_t) (valid : List Nat) (si : Nat) (sg : Bool)
    (b : Nat) (hb : sys.base = (b : Int)) (g : Nat → Nat) :
    ∀ (cs : List Nat) (idx k pv : Nat) (r : Int),
      (∀ c ∈ cs, ∀ (i pv1 : Nat) (r1 : Int),
        tonum_body sys valid si sg i c pv1 r1 = digit_step sys.base (g c) pv1 r1) →
      pv = b ^ k % 2 ^ 64 → 0 ≤ r →
      r + ((b ^ k * weighted_value g b cs : Nat) : Int) ≤ LLONG_MAX →
      scan_from sys valid si sg idx cs pv r =
        .next (b ^ (k + cs.length) % 2 ^ 64) (r + ((b ^ k * weighted_value g b cs : Nat) : Int)) := by
  intro cs
  induction cs with
  | nil =>
    intro idx k pv r _ hpv _ _
    simp [scan_from, weighted_value, hpv]
  | cons c cs ih =>
    intro idx k pv r hbody hpv hr hsum
    have hsplit : b ^ k * weighted_value g b (c :: cs)
        = g c * b ^ (k + cs.length) + b ^ k * weighted_value g b cs := by
      simp only [weighted_value, pow_add]; ring
    rw [hsplit] at hsum ⊢
    push_cast at hsum
    have hinner := ih (idx + 1) k pv r (fun x hx => hbody x (List.mem_cons_of_mem _ hx)) hpv hr
      (by push_cast
          have : (0 : Int) ≤ (g c : Int) * (b : Int) ^ (k + cs.length) := by positivity
          omega)
    rw [scan_from, hinner]
    simp only []
    rw [hbody c (List.mem_cons_self _ _), hb]
    rw [digit_step_ok b (g c) (k + cs.length) _ _ rfl (by positivity) (by push_cast; omega)]
    have e : k + (c :: cs).length = k + cs.length + 1 := by simp; omega
    rw [e]
    push_cast
    congr 1
    ring

/-! ## Digit characters -/

theorem strchr_IGNORE_iff (c : Nat) : strchr IGNORE c = (decide (c = 0) || is_separator c) := by
  by_cases h : c < 96
  · revert c
    decide
  · have h1 : strchr IGNORE c = false := by
      cases hs : strchr IGNORE c
      · rfl
      · have := strchr_mem _ _ hs
        simp [IGNORE] at this
        omega
    have h2 : is_separator c = false := by
      simp [is_separator]; omega
    rw [h1, h2]
    simp; omega

theorem digit_value_small :
    ∀ c : Nat, c < 123 → (digit_value c).isSome = true →
      c ≠ 45 ∧ c ≠ 0 ∧ strchr IGNORE c = false ∧ some (digit_to_num c) = digit_value c
        ∧ digit_to_num c ≤ 35 := by
  decide

theorem digit_value_facts (c d : Nat) (h : digit_value c = some d) :
    c ≠ 45 ∧ c ≠ 0 ∧ strchr IGNORE c = false ∧ digit_to_num c = d ∧ d ≤ 35 := by
  have hc : c < 123 := by
    by_contra hc
    unfold digit_value at h
    rw [if_neg (by omega), if_neg (by omega), if_neg (by omega)] at h
    cases h
  obtain ⟨h1, h2, h3, h4, h5⟩ := digit_value_small c hc (by rw [h]; rfl)
  rw [h] at h4
  injection h4 with h4
  exact ⟨h1, h2, h3, h4, h4 ▸ h5⟩

theorem is_digit_of_value (b c : Nat) (h : is_digit_of b c = true) :
    ∃ d, digit_value c = some d ∧ d < b := by
  unfold is_digit_of at h
  cases hd : digit_value c with
  | none => rw [hd] at h; cases h
  | some d =>
    rw [hd] at h
    exact ⟨d, rfl, of_decide_eq_true h⟩

/-- A digit character of the base is found in the buffer of `valid_chrs`. -/
theorem strchr_valid_digit (b : Nat) (h1 : 1 ≤ b) (h36 : b ≤ 36) (rep c : Nat)
    (h : is_digit_of b c = true) : strchr (valid_chrs ⟨(b : Int), rep⟩) c = true := by
  rw [strchr_valid (b : Int) (by omega) (by omega) rep c, Int.toNat_ofNat]
  simp [accepted, h]

/-- Under a scheme without digit complement, or on an unsigned text, the scan
treats a digit character of the base as its digit value. -/
theorem body_plain_digit (b : Nat) (h1 : 1 ≤ b) (h36 : b ≤ 36) (rep si : Nat) (sg : Bool)
    (hplain : (rep &&& 12) = 0 ∨ sg = false) (c : Nat) (h : is_digit_of b c = true)
    (i pv : Nat) (r : Int) :
    tonum_body ⟨(b : Int), rep⟩ (valid_chrs ⟨(b : Int), rep⟩) si sg i c pv r =
      digit_step (b : Int) ((digit_value c).getD 0) pv r := by
  obtain ⟨d, hd, hlt⟩ := is_digit_of_value b c h
  obtain ⟨f1, f2, f3, f4, f5⟩ := digit_value_facts c d hd
  rw [body_digit _ _ _ _ _ _ _ _ (strchr_valid_digit b h1 h36 rep c h) f3 f1]
  have : body_digit_val ⟨(b : Int), rep⟩ sg c = d := by
    unfold body_digit_val
    rw [if_neg, f4]
    rintro ⟨h12, hsg⟩
    rcases hplain with hp | hp
    · exact h12 hp
    · rw [hp] at hsg; cases hsg
  rw [this, hd]
  rfl

/-! ## C3: the value parsed under `NEG_SIGN` -/

theorem locate_sign_cons_digit (c d : Nat) (cs : List Nat) (h : digit_value c = some d) :
    locate_sign (c :: cs) = some 0 := by
  obtain ⟨_, _, f3, _, _⟩ := digit_value_facts c d h
  simp [locate_sign, f3]

/-- C3. Under `NEG_SIGN`, for every base `b` in `[2,36]` and every non-empty
text `ds` of digit characters of value below `b` (either case, no separator)
whose positional value `m` is at most `2^63-1`, `numsys_tonum` returns `m` on
`ds` and `-m` on `'-'` followed by `ds`, leaving `errno` as it was. -/
theorem tonum_neg_sign_value (b : Nat) (hb2 : 2 ≤ b) (hb36 : b ≤ 36) (ds : List Nat)
    (hne : ds ≠ []) (hd : ∀ c ∈ ds, is_digit_of b c = true)
    (hm : positional_value b ds ≤ 2 ^ 63 - 1) (errno : Int) :
    numsys_tonum (some ds) ⟨(b : Int), NEG_SIGN⟩ errno
        = .ret (positional_value b ds : Int) errno ∧
      numsys_tonum (some (45 :: ds)) ⟨(b : Int), NEG_SIGN⟩ errno
        = .ret (-(positional_value b ds : Int)) errno := by
  have hL : LLONG_MAX = 9223372036854775807 := by decide
  have hbase : inval_base (b : Int) = false := by
    simp [inval_base]; omega
  have hrep : inval_rep NEG_SIGN = false := by decide
  have hstop : stop_index ⟨(b : Int), NEG_SIGN⟩ = 0 := by simp [stop_index]
  obtain ⟨c0, cs, rfl⟩ := List.exists_cons_of_ne_nil hne
  obtain ⟨d0, hd0, _⟩ := is_digit_of_value b c0 (hd c0 (List.mem_cons_self _ _))
  obtain ⟨f1, f2, f3, f4, f5⟩ := digit_value_facts c0 d0 hd0
  have hscan : ∀ (sg : Bool) (idx : Nat),
      scan_from ⟨(b : Int), NEG_SIGN⟩ (valid_chrs ⟨(b : Int), NEG_SIGN⟩) 0 sg idx (c0 :: cs) 1 0
        = .next (b ^ (c0 :: cs).length % 2 ^ 64) (positional_value b (c0 :: cs) : Int) := by
    intro sg idx
    have h := scan_from_digits ⟨(b : Int), NEG_SIGN⟩ (valid_chrs ⟨(b : Int), NEG_SIGN⟩) 0 sg b rfl
      (fun c => (digit_value c).getD 0) (c0 :: cs) idx 0 1 0
      (fun c hc i pv1 r1 =>
        body_plain_digit b (by omega) hb36 NEG_SIGN 0 sg (Or.inl (by decide)) c (hd c hc) i pv1 r1)
      (by simp) (le_refl _)
      (by rw [← positional_value_eq, hL]; simp only [pow_zero, one_mul, zero_add]
          exact_mod_cast hm)
    rw [h, ← positional_value_eq]
    simp
  have hpos : (0 : Int) ≤ (positional_value b (c0 :: cs) : Int) := by positivity
  constructor
  · rw [numsys_tonum_eq (c0 :: cs) _ errno 0 hbase hrep (locate_sign_cons_digit c0 d0 cs hd0)
      (by rw [hstop]; simp)]
    rw [hstop, List.drop_zero]
    have hsg : ((decide ((⟨(b : Int), NEG_SIGN⟩ : numsys_t).rep ≠ NEG_SIGN)
        && decide ((c0 :: cs).getD 0 0 ≠ 48)) || decide ((c0 :: cs).getD 0 0 = 45)) = false := by
      simp [f1]
    rw [hsg]
    have hr0 : (if (⟨(b : Int), NEG_SIGN⟩ : numsys_t).rep = TWOS_COMPL ∧ false = true
        then (1 : Int) else 0) = 0 := by simp
    rw [hr0, hscan]
    simp [finish]
  · have hls : locate_sign (45 :: c0 :: cs) = some 0 := by
      have : strchr IGNORE 45 = false := by decide
      simp [locate_sign, this]
    rw [numsys_tonum_eq (45 :: c0 :: cs) _ errno 0 hbase hrep hls (by rw [hstop]; simp)]
    rw [hstop, List.drop_zero]
    have hsg : ((decide ((⟨(b : Int), NEG_SIGN⟩ : numsys_t).rep ≠ NEG_SIGN)
        && decide ((45 :: c0 :: cs).getD 0 0 ≠ 48)) || decide ((45 :: c0 :: cs).getD 0 0 = 45))
        = true := by
      simp
    rw [hsg]
    have hr0 : (if (⟨(b : Int), NEG_SIGN⟩ : numsys_t).rep = TWOS_COMPL ∧ true = true
        then (1 : Int) else 0) = 0 := by
      have : NEG_SIGN ≠ TWOS_COMPL := by decide
      simp [this]
    rw [hr0, scan_from, hscan]
    simp only []
    have hv45 : strchr (valid_chrs ⟨(b : Int), NEG_SIGN⟩) 45 = true := by
      rw [strchr_valid (b : Int) (by omega) (by omega) NEG_SIGN 45]
      simp [accepted]
    rw [body_minus _ _ _ _ _ _ _ hv45 rfl rfl]
    have hmin : ¬ ((positional_value b (c0 :: cs) : Int) = LLONG_MIN) := by
      have : LLONG_MIN < 0 := by decide
      omega
    simp [finish, hmin]

theorem tonum_neg_sign_value_witness :
    numsys_tonum (some (cstr "fF")) ⟨((16 : Nat) : Int), NEG_SIGN⟩ 0
        = .ret (positional_value 16 (cstr "fF") : Int) 0 ∧
      numsys_tonum (some (45 :: cstr "fF")) ⟨((16 : Nat) : Int), NEG_SIGN⟩ 0
        = .ret (-(positional_value 16 (cstr "fF") : Int)) 0 :=
  tonum_neg_sign_value 16 (by decide) (by decide) (cstr "fF") (by decide) (by decide)
    (by decide) 0

/-! ## C4: the two's-complement identity -/

theorem max_digit_value :
    ∀ b : Nat, b < 37 → 2 ≤ b →
      digit_value (to_char (max_digit (b : Int))) = some (b - 1)
        ∧ to_char (max_digit (b : Int)) ≠ 48 := by
  decide

/-- The digit-wise complement of a text of digits of the base and the text
itself add up to `b ^ length - 1`. -/
theorem weighted_value_compl (b : Nat) (cs : List Nat) (hd : ∀ c ∈ cs, is_digit_of b c = true) :
    weighted_value (fun c => b - 1 - (digit_value c).getD 0) b cs + positional_value b cs + 1
      = b ^ cs.length := by
  induction cs with
  | nil => simp [weighted_value, positional_value]
  | cons c cs ih =>
    obtain ⟨d, hd1, hlt⟩ := is_digit_of_value b c (hd c (List.mem_cons_self _ _))
    have ih1 := ih (fun x hx => hd x (List.mem_cons_of_mem _ hx))
    simp only [weighted_value, positional_value, hd1, Option.getD_some, List.length_cons, pow_succ]
    have e : (b - 1 - d) * b ^ cs.length + d * b ^ cs.length + b ^ cs.length
        = b ^ cs.length * b := by
      have : b - 1 - d + d + 1 = b := by omega
      calc (b - 1 - d) * b ^ cs.length + d * b ^ cs.length + b ^ cs.length
          = (b - 1 - d + d + 1) * b ^ cs.length := by ring
        _ = b ^ cs.length * b := by rw [this]; ring
    omega

/-- Under a complement scheme the scan of a signed text treats a digit
character of the base as the complement of its digit value. -/
theorem body_compl_digit (b : Nat) (h2 : 2 ≤ b) (h36 : b ≤ 36) (rep si : Nat)
    (hrep : (rep &&& 12) ≠ 0) (c : Nat) (h : is_digit_of b c = true)
    (i pv : Nat) (r : Int) :
    tonum_body ⟨(b : Int), rep⟩ (valid_chrs ⟨(b : Int), rep⟩) si true i c pv r =
      digit_step (b : Int) (b - 1 - (digit_value c).getD 0) pv r := by
  obtain ⟨d, hd, hlt⟩ := is_digit_of_value b c h
  obtain ⟨f1, f2, f3, f4, f5⟩ := digit_value_facts c d hd
  rw [body_digit _ _ _ _ _ _ _ _ (strchr_valid_digit b (by omega) h36 rep c h) f3 f1]
  have : body_digit_val ⟨(b : Int), rep⟩ true c = b - 1 - d := by
    unfold body_digit_val
    rw [if_pos ⟨hrep, rfl⟩, f4]
    have hb1 : (b : Int) ≠ 1 := by omega
    simp only [hb1, ne_eq, not_false_eq_true, if_true]
    have : ((b : Int) - 1 - (d : Int)) % 2 ^ 32 = ((b - 1 - d : Nat) : Int) := by
      rw [Int.emod_eq_of_lt (by omega) (by omega)]
      omega
    rw [this, Int.toNat_ofNat]
  rw [this, hd]
  rfl

/-- C4. For every base `b` in `[2,36]` and every text made of the maximum
digit symbol of `b` followed by a non-empty run `rest` of digit characters of
value below `b`, with `U` the text read as an unsigned base-`b` numeral and
`L` its length: if `U - b^L ≥ -(2^63-1)` then `numsys_tonum` under
`TWOS_COMPL` returns `U - b^L`, leaving `errno` as it was. -/
theorem tonum_twos_compl_identity (b : Nat) (hb2 : 2 ≤ b) (hb36 : b ≤ 36) (rest : List Nat)
    (hne : rest ≠ []) (hd : ∀ c ∈ rest, is_digit_of b c = true)
    (hrange : -(2 ^ 63 - 1 : Int) ≤
      (positional_value b (to_char (max_digit (b : Int)) :: rest) : Int)
        - (b : Int) ^ (rest.length + 1))
    (errno : Int) :
    numsys_tonum (some (to_char (max_digit (b : Int)) :: rest)) ⟨(b : Int), TWOS_COMPL⟩ errno
      = .ret ((positional_value b (to_char (max_digit (b : Int)) :: rest) : Int)
          - (b : Int) ^ (rest.length + 1)) errno := by
  have hL : LLONG_MAX = 9223372036854775807 := by decide
  have hLm : LLONG_MIN = -9223372036854775808 := by decide
  obtain ⟨hmax, hne48⟩ := max_digit_value b (by omega) hb2
  generalize to_char (max_digit (b : Int)) = c0 at hmax hne48 hrange ⊢
  have hbase : inval_base (b : Int) = false := by
    simp [inval_base]; omega
  have hrep : inval_rep TWOS_COMPL = false := by decide
  have hstop : stop_index ⟨(b : Int), TWOS_COMPL⟩ = 1 := by
    have : TWOS_COMPL ≠ NEG_SIGN := by decide
    simp [stop_index, this]
  have hlen : 0 < rest.length := List.length_pos.mpr hne
  have hcompl := weighted_value_compl b rest hd
  -- the value of the text in terms of the value of `rest`
  have hU : (positional_value b (c0 :: rest) : Int) - (b : Int) ^ (rest.length + 1)
      = -(1 + (weighted_value (fun c => b - 1 - (digit_value c).getD 0) b rest : Int)) := by
    have h1 : positional_value b (c0 :: rest)
        = (b - 1) * b ^ rest.length + positional_value b rest := by
      simp [positional_value, hmax]
    have h2 : ((b - 1 : Nat) : Int) = (b : Int) - 1 := by omega
    have h3 : ((b ^ rest.length : Nat) : Int) = (b : Int) ^ rest.length := by push_cast; rfl
    have h4 : (weighted_value (fun c => b - 1 - (digit_value c).getD 0) b rest : Int)
        + (positional_value b rest : Int) + 1 = (b : Int) ^ rest.length := by
      rw [← h3, ← hcompl]; push_cast; ring
    rw [h1]
    push_cast
    rw [h2, pow_succ]
    linarith
  rw [hU] at hrange ⊢
  rw [numsys_tonum_eq (c0 :: rest) _ errno 0 hbase hrep (locate_sign_cons_digit c0 _ rest hmax)
    (by rw [hstop]; simp; omega)]
  rw [hstop]
  have hsg : ((decide ((⟨(b : Int), TWOS_COMPL⟩ : numsys_t).rep ≠ NEG_SIGN)
      && decide ((c0 :: rest).getD 0 0 ≠ 48)) || decide ((c0 :: rest).getD 0 0 = 45)) = true := by
    have : TWOS_COMPL ≠ NEG_SIGN := by decide
    simp [this, hne48]
  rw [hsg]
  have hr0 : (if (⟨(b : Int), TWOS_COMPL⟩ : numsys_t).rep = TWOS_COMPL ∧ true = true
      then (1 : Int) else 0) = 1 := by simp
  rw [hr0]
  have hdrop : (c0 :: rest).drop 1 = rest := rfl
  rw [hdrop]
  have h := scan_from_digits ⟨(b : Int), TWOS_COMPL⟩ (valid_chrs ⟨(b : Int), TWOS_COMPL⟩) 0 true b
    rfl (fun c => b - 1 - (digit_value c).getD 0) rest 1 0 1 1
    (fun c hc i pv1 r1 =>
      body_compl_digit b hb2 hb36 TWOS_COMPL 0 (by decide) c (hd c hc) i pv1 r1)
    (by simp) (by decide)
    (by rw [hL]; simp only [pow_zero, one_mul]; omega)
  rw [h]
  simp only [pow_zero, one_mul, finish, if_true]
  rw [if_neg (by rw [hLm]; omega)]

theorem tonum_twos_compl_identity_witness :
    numsys_tonum (some (cstr "1111")) ⟨2, TWOS_COMPL⟩ 0 = .ret (-1) 0 :=
  tonum_twos_compl_identity 2 (by decide) (by decide) (cstr "111") (by decide) (by decide)
    (by decide) 0

/-! ## C9: separators between digits -/

theorem locate_sign_lt : ∀ (A : List Nat) (si : Nat), locate_sign A = some si → si < A.length := by
  intro A
  induction A with
  | nil => intro si h; simp [locate_sign] at h
  | cons a A ih =>
    intro si h
    unfold locate_sign at h
    split at h
    · cases hA : locate_sign A with
      | none => rw [hA] at h; cases h
      | some k =>
        rw [hA] at h
        simp only [Option.map_some', Option.some.injEq] at h
        have := ih k hA
        simp only [List.length_cons]
        omega
    · injection h with h
      simp only [List.length_cons]
      omega

theorem locate_sign_append : ∀ (A X : List Nat) (si : Nat),
    locate_sign A = some si → locate_sign (A ++ X) = some si := by
  intro A
  induction A with
  | nil => intro X si h; simp [locate_sign] at h
  | cons a A ih =>
    intro X si h
    rw [List.cons_append]
    unfold locate_sign at h ⊢
    split at h
    · rename_i hs
      rw [if_pos hs]
      cases hA : locate_sign A with
      | none => rw [hA] at h; cases h
      | some k =>
        rw [hA] at h
        rw [ih X k hA]
        exact h
    · rename_i hs
      rw [if_neg hs]
      exact h

theorem locate_sign_snoc : ∀ (p : List Nat) (c : Nat), strchr IGNORE c = false →
    ∃ si, locate_sign (p ++ [c]) = some si := by
  intro p
  induction p with
  | nil => intro c h; exact ⟨0, by simp [locate_sign, h]⟩
  | cons a p ih =>
    intro c h
    obtain ⟨k, hk⟩ := ih c h
    rw [List.cons_append]
    unfold locate_sign
    by_cases hs : strchr IGNORE a = true
    · rw [if_pos hs, hk]; exact ⟨k + 1, rfl⟩
    · rw [if_neg hs]; exact ⟨0, rfl⟩

/-- The scan looks at the index of a character only to compare it with the
sign index. -/
theorem body_index (sys : numsys_t) (valid : List Nat) (si : Nat) (sg : Bool) (i j c pv : Nat)
    (r : Int) (hi : i ≠ si) (hj : j ≠ si) :
    tonum_body sys valid si sg i c pv r = tonum_body sys valid si sg j c pv r := by
  unfold tonum_body
  simp [hi, hj]

theorem scan_from_shift (sys : numsys_t) (valid : List Nat) (si : Nat) (sg : Bool) :
    ∀ (B : List Nat) (k j pv : Nat) (r : Int), si < k → si < j →
      scan_from sys valid si sg k B pv r = scan_from sys valid si sg j B pv r := by
  intro B
  induction B with
  | nil => intro k j pv r _ _; simp [scan_from]
  | cons c B ih =>
    intro k j pv r hk hj
    rw [scan_from, scan_from, ih (k + 1) (j + 1) pv r (by omega) (by omega)]
    cases scan_from sys valid si sg (j + 1) B pv r with
    | exit e => rfl
    | next pv1 r1 =>
      exact body_index sys valid si sg k j c pv1 r1 (by omega) (by omega)

theorem scan_from_seps (sys : numsys_t) (valid : List Nat) (si : Nat) (sg : Bool) :
    ∀ (seps : List Nat) (k pv : Nat) (r : Int),
      (∀ c ∈ seps, is_separator c = true ∧ strchr valid c = true) →
      scan_from sys valid si sg k seps pv r = .next pv r := by
  intro seps
  induction seps with
  | nil => intro k pv r _; simp [scan_from]
  | cons c seps ih =>
    intro k pv r h
    rw [scan_from, ih (k + 1) pv r (fun x hx => h x (List.mem_cons_of_mem _ hx))]
    obtain ⟨hs, hv⟩ := h c (List.mem_cons_self _ _)
    have hI : strchr IGNORE c = true := by rw [strchr_IGNORE_iff, hs]; simp
    have h45 : c ≠ 45 := by
      rintro rfl
      revert hs
      decide
    exact body_sep sys valid si sg k c pv r hv hI h45

theorem scan_from_insert (sys : numsys_t) (valid : List Nat) (si : Nat) (sg : Bool)
    (A seps B : List Nat) (k pv : Nat) (r : Int) (hsi : si < k + A.length)
    (hseps : ∀ c ∈ seps, is_separator c = true ∧ strchr valid c = true) :
    scan_from sys valid si sg k (A ++ (seps ++ B)) pv r
      = scan_from sys valid si sg k (A ++ B) pv r := by
  rw [scan_from_append sys valid si sg A (seps ++ B), scan_from_append sys valid si sg A B,
    scan_from_append sys valid si sg seps B,
    scan_from_shift sys valid si sg B (k + A.length + seps.length) (k + A.length) pv r
      (by omega) (by omega)]
  cases scan_from sys valid si sg (k + A.length) B pv r with
  | exit e => rfl
  | next pv1 r1 =>
    simp only []
    rw [scan_from_seps sys valid si sg seps _ _ _ hseps]

theorem getD_append_left (A X : List Nat) (i : Nat) (h : i < A.length) :
    (A ++ X).getD i 0 = A.getD i 0 := by
  simp [List.getD, List.getElem?_append_left h]

/-- C9. For every number system and every text, inserting any run of
separator characters (tab, newline, vertical tab, form feed, carriage return,
space, underscore) between two adjacent digit characters `c1`, `c2` of the
text leaves the outcome of `numsys_tonum` unchanged. -/
theorem tonum_separator_insertion (sys : numsys_t) (errno : Int) (p s seps : List Nat)
    (c1 c2 : Nat) (h1 : (digit_value c1).isSome = true) (_h2 : (digit_value c2).isSome = true)
    (hseps : ∀ c ∈ seps, is_separator c = true) :
    numsys_tonum (some (p ++ c1 :: (seps ++ c2 :: s))) sys errno
      = numsys_tonum (some (p ++ c1 :: c2 :: s)) sys errno := by
  by_cases hinv : (inval_base sys.base || inval_rep sys.rep) = true
  · simp [numsys_tonum, hinv]
  · have hb : inval_base sys.base = false := by
      cases h : inval_base sys.base <;> simp_all
    have hr : inval_rep sys.rep = false := by
      cases h : inval_rep sys.rep <;> simp_all
    have hb' : 1 ≤ sys.base ∧ sys.base ≤ 36 := by
      simp [inval_base] at hb; omega
    obtain ⟨d1, hd1⟩ := Option.isSome_iff_exists.mp h1
    obtain ⟨g1, g2, g3, g4, g5⟩ := digit_value_facts c1 d1 hd1
    obtain ⟨si, hsi⟩ := locate_sign_snoc p c1 g3
    have hsilt := locate_sign_lt _ _ hsi
    have hstop : stop_index sys ≤ 1 := by
      unfold stop_index; split <;> omega
    have hAlen : (p ++ [c1]).length = p.length + 1 := by simp
    have e1 : p ++ c1 :: (seps ++ c2 :: s) = (p ++ [c1]) ++ (seps ++ c2 :: s) := by simp
    have e2 : p ++ c1 :: c2 :: s = (p ++ [c1]) ++ (c2 :: s) := by simp
    rw [e1, e2]
    rw [numsys_tonum_eq _ sys errno si hb hr (locate_sign_append _ _ _ hsi)
        (by simp only [List.length_append, List.length_cons]; omega),
      numsys_tonum_eq _ sys errno si hb hr (locate_sign_append _ _ _ hsi)
        (by simp only [List.length_append, List.length_cons]; omega)]
    rw [getD_append_left _ _ _ hsilt, getD_append_left _ _ _ hsilt]
    have hdrop : ∀ X : List Nat, (p ++ [c1] ++ X).drop (stop_index sys)
        = (p ++ [c1]).drop (stop_index sys) ++ X := fun X =>
      List.drop_append_of_le_length (by rw [hAlen]; omega)
    have hvalid : ∀ c ∈ seps, is_separator c = true ∧ strchr (valid_chrs sys) c = true := by
      intro c hc
      refine ⟨hseps c hc, ?_⟩
      have : sys = ⟨sys.base, sys.rep⟩ := rfl
      rw [this, strchr_valid sys.base hb'.1 hb'.2 sys.rep c]
      simp [accepted, hseps c hc]
    have hidx : si < stop_index sys + ((p ++ [c1]).drop (stop_index sys)).length := by
      rw [List.length_drop]; omega
    rw [hdrop, hdrop, scan_from_insert _ _ _ _ _ _ _ _ _ _ hidx hvalid]

theorem tonum_separator_insertion_witness :
    numsys_tonum (some (cstr "1_0 10")) ⟨2, NEG_SIGN⟩ 0
        = numsys_tonum (some (cstr "10 10")) ⟨2, NEG_SIGN⟩ 0
      ∧ numsys_tonum (some (cstr "10 10")) ⟨2, NEG_SIGN⟩ 0
        = numsys_tonum (some (cstr "1010")) ⟨2, NEG_SIGN⟩ 0
      ∧ numsys_tonum (some (cstr "1010")) ⟨2, NEG_SIGN⟩ 0 = .ret 10 0 :=
  ⟨tonum_separator_insertion ⟨2, NEG_SIGN⟩ 0 [] (cstr " 10") (cstr "_") 49 48 (by decide)
      (by decide) (by decide),
    tonum_separator_insertion ⟨2, NEG_SIGN⟩ 0 (cstr "1") (cstr "0") (cstr " ") 48 49 (by decide)
      (by decide) (by decide),
    by decide⟩

/-! ## C10: characters outside the character set -/

/-- C7 (amended). Whenever a number system has a base outside `[1,36]` or a
scheme value with none of the four flag bits set (`rep & 15 = 0`):
`numsys_tonum` and `numsys_tostring` fail with `EINVAL` for every text and
every value, `numsys_conv` fails with `EINVAL` for every text when that system
is the source, and when it is the destination `numsys_conv` fails with
`EINVAL` whenever the parse under the source system returns with `errno` not
positive. -/
theorem invalid_system_rejected (sys : numsys_t)
    (h : sys.base < 1 ∨ 36 < sys.base ∨ sys.rep &&& 15 = 0) :
    (∀ text errno, numsys_tonum text sys errno = .ret 0 EINVAL)
      ∧ (∀ num errno, numsys_tostring num sys errno = .ret none EINVAL)
      ∧ (∀ text dest errno, numsys_conv text sys dest errno = .ret none EINVAL)
      ∧ (∀ text src errno v e, numsys_tonum text src errno = .ret v e → e ≤ 0 →
          numsys_conv text src sys errno = .ret none EINVAL) := by
  have hinv : (inval_base sys.base || inval_rep sys.rep) = true := by
    rcases h with h | h | h
    · simp [inval_base, h]
    · simp [inval_base, h]
    · simp [inval_rep, h]
  have h1 : ∀ text errno, numsys_tonum text sys errno = .ret 0 EINVAL := by
    intro text errno
    cases text with
    | none => rfl
    | some s => simp [numsys_tonum, hinv]
  have h2 : ∀ num errno, numsys_tostring num sys errno = .ret none EINVAL := by
    intro num errno
    simp [numsys_tostring, hinv]
  refine ⟨h1, h2, ?_, ?_⟩
  · intro text dest errno
    unfold numsys_conv
    rw [h1]
    simp only []
    rw [if_pos (by decide)]
  · intro text src errno v e hp he
    unfold numsys_conv
    rw [hp]
    simp only []
    rw [if_neg (by omega), h2]

theorem invalid_system_rejected_witness :
    (∀ text errno, numsys_tonum text ⟨37, NEG_SIGN⟩ errno = .ret 0 EINVAL)
      ∧ (∀ num errno, numsys_tostring num ⟨37, NEG_SIGN⟩ errno = .ret none EINVAL)
      ∧ (∀ text dest errno, numsys_conv text ⟨37, NEG_SIGN⟩ dest errno = .ret none EINVAL)
      ∧ (∀ text src errno v e, numsys_tonum text src errno = .ret v e → e ≤ 0 →
          numsys_conv text src ⟨37, NEG_SIGN⟩ errno = .ret none EINVAL) :=
  invalid_system_rejected ⟨37, NEG_SIGN⟩ (by decide)

/-- C7 (counterexample). The scheme value 3 is none of the four schemes, yet
`numsys_tonum` and `numsys_tostring` accept it; and with the invalid
destination base 0, `numsys_conv` fails with the `EOVERFLOW` of the parse, not
with `EINVAL`. -/
theorem invalid_system_counterexample :
    numsys_tonum (some (cstr "05")) ⟨10, 3⟩ 0 = .ret 5 0
      ∧ numsys_tostring 5 ⟨10, 3⟩ 0 = .ret (some (cstr "05")) 0
      ∧ numsys_conv (some (cstr "99999999999999999999")) ⟨10, NEG_SIGN⟩ ⟨0, NEG_SIGN⟩ 0
          = .ret none EOVERFLOW := by
  decide!

/-! ## C6: the conversion facade -/

theorem tonum_loop_errno (s : List Nat) (sys : numsys_t) (valid : List Nat) (si : Nat)
    (sg : Bool) (errno : Int) :
    ∀ (i pv : Nat) (r : Int) (v e : Int),
      tonum_loop s sys valid si sg errno i pv r = .ret v e →
        e = errno ∨ e = EINVAL ∨ e = EOVERFLOW := by
  intro i
  induction i with
  | zero =>
    intro pv r v e h
    rw [tonum_loop] at h
    cases hg : s.get? 0 with
    | none => rw [hg] at h; cases h
    | some cur =>
      rw [hg] at h
      simp only [] at h
      cases hbd : tonum_body sys valid si sg 0 cur pv r with
      | exit e1 =>
        rw [hbd] at h
        injection h with _ h
        rcases body_exit _ _ _ _ _ _ _ _ _ hbd with h1 | h1
        · exact Or.inr (Or.inl (h ▸ h1))
        · exact Or.inr (Or.inr (h ▸ h1))
      | next pv1 r1 =>
        rw [hbd] at h
        simp only [] at h
        split_ifs at h <;> first
          | (injection h with _ h; exact Or.inl h.symm)
          | (injection h with _ h; exact Or.inr (Or.inr h.symm))
  | succ j ih =>
    intro pv r v e h
    rw [tonum_loop] at h
    cases hg : s.get? (j + 1) with
    | none => rw [hg] at h; cases h
    | some cur =>
      rw [hg] at h
      simp only [] at h
      cases hbd : tonum_body sys valid si sg (j + 1) cur pv r with
      | exit e1 =>
        rw [hbd] at h
        injection h with _ h
        rcases body_exit _ _ _ _ _ _ _ _ _ hbd with h1 | h1
        · exact Or.inr (Or.inl (h ▸ h1))
        · exact Or.inr (Or.inr (h ▸ h1))
      | next pv1 r1 =>
        rw [hbd] at h
        simp only [] at h
        split_ifs at h <;> first
          | (injection h with _ h; exact Or.inl h.symm)
          | (injection h with _ h; exact Or.inr (Or.inr h.symm))
          | exact ih _ _ _ _ h

/-- On exit from `numsys_tonum`, `errno` is as on entry or holds `EINVAL` or
`EOVERFLOW`. -/
theorem numsys_tonum_errno (text : Option (List Nat)) (sys : numsys_t) (errno v e : Int)
    (h : numsys_tonum text sys errno = .ret v e) :
    e = errno ∨ e = EINVAL ∨ e = EOVERFLOW := by
  unfold numsys_tonum at h
  cases text with
  | none =>
    injection h with _ h
    exact Or.inr (Or.inl h.symm)
  | some s =>
    simp only [] at h
    split_ifs at h
    · injection h with _ h
      exact Or.inr (Or.inl h.symm)
    · cases hl : locate_sign s with
      | none => rw [hl] at h; cases h
      | some si =>
        rw [hl] at h
        simp only [] at h
        cases hn : s.length with
        | zero => rw [hn] at h; cases h
        | succ n =>
          rw [hn] at h
          exact tonum_loop_errno _ _ _ _ _ _ _ _ _ _ _ h

/-- C6. With `errno` clear on entry, `numsys_conv` is the composition of
`numsys_tonum` and `numsys_tostring` when the parse succeeds and fails with
exactly the error of the parse, without formatting, when the parse fails; and
`numsys_conv("FF", {16, NEG_SIGN}, {2, NEG_SIGN})` is `"11111111"`. -/
theorem numsys_conv_is_composition :
    (∀ text src dest, numsys_conv text src dest 0 = convert_spec text src dest)
      ∧ numsys_conv (some (cstr "FF")) ⟨16, NEG_SIGN⟩ ⟨2, NEG_SIGN⟩ 0
          = .ret (some (cstr "11111111")) 0 := by
  constructor
  · intro text src dest
    unfold numsys_conv convert_spec
    cases hp : numsys_tonum text src 0 with
    | undef => rfl
    | ret v e =>
      simp only []
      rcases numsys_tonum_errno text src 0 v e hp with h | h | h
      · subst h; simp
      · subst h; simp [EINVAL]
      · subst h; simp [EOVERFLOW]
  · decide!

/-! ## Evaluations of the code at failing inputs -/

/-- C1 (failing input). In base 16 under `NEG_SIGN` the value `2^53 + 1` is
formatted as `"20000000000000"`, which parses to `2^53`: the round trip does
not return the value. -/
theorem roundtrip_fails_at_2_53_plus_1 :
    numsys_tostring (2 ^ 53 + 1) ⟨16, NEG_SIGN⟩ 0 = .ret (some (cstr "20000000000000")) 0
      ∧ numsys_tonum (some (cstr "20000000000000")) ⟨16, NEG_SIGN⟩ 0 = .ret (2 ^ 53) 0 := by
  decide!

/-- C2 (failing input). The decimal text of `10^20`, a value beyond `2^63-1`,
parses under `NEG_SIGN` to the wrapped value `10^20 mod 2^64` instead of
failing with `EOVERFLOW`. -/
theorem overflow_undetected_at_10_pow_20 :
    positional_value 10 (cstr "100000000000000000000") = 10 ^ 20
      ∧ numsys_tonum (some (cstr "100000000000000000000")) ⟨10, NEG_SIGN⟩ 0
          = .ret 7766279631452241920 0 := by
  decide!

/-- C5 (failing input). In base 2 under `NEG_SIGN` the value `2^53 + 1` is
formatted with a last digit `'0'`: the text is that of `2^53`, not the
canonical digits of the value. -/
theorem tostring_digits_wrong_at_2_53_plus_1 :
    numsys_tostring (2 ^ 53 + 1) ⟨2, NEG_SIGN⟩ 0
      = .ret (some (49 :: List.replicate 53 48)) 0 := by
  decide!

/-- C8 (failing input). In base 10 under `SIGN_PLACE` the text `"0a"` parses
to 10 while `"0A"` fails with `EINVAL`. -/
theorem case_sensitivity_at_base_10 :
    numsys_tonum (some (cstr "0a")) ⟨10, SIGN_PLACE⟩ 0 = .ret 10 0
      ∧ numsys_tonum (some (cstr "0A")) ⟨10, SIGN_PLACE⟩ 0 = .ret 0 EINVAL := by
  decide

/-! ## Sanity of the auxiliary loops and of the rounding -/

/-- The fuel of `valid_chrs_loop` is not limiting: once it covers the distance
to the bound, more fuel does not change the buffer. -/
theorem valid_chrs_loop_fuel (bound : Nat) :
    ∀ (fuel1 fuel2 i di : Nat) (valid : List Nat), bound ≤ i + fuel1 → bound ≤ i + fuel2 →
      valid_chrs_loop bound fuel1 i di valid = valid_chrs_loop bound fuel2 i di valid := by
  intro fuel1
  induction fuel1 with
  | zero =>
    intro fuel2 i di valid h1 _
    cases fuel2 with
    | zero => rfl
    | succ f2 =>
      unfold valid_chrs_loop
      rw [if_neg (by omega)]
  | succ f1 ih =>
    intro fuel2 i di valid h1 h2
    cases fuel2 with
    | zero =>
      unfold valid_chrs_loop
      rw [if_neg (by omega)]
    | succ f2 =>
      rw [valid_chrs_loop, valid_chrs_loop]
      by_cases hlt : i < bound
      · rw [if_pos hlt, if_pos hlt]
        simp only []
        by_cases h16 : i ≥ IGNORE_LEN - 1 + 10
        · rw [if_pos h16, if_pos h16]
          exact ih f2 _ _ _ (by omega) (by omega)
        · rw [if_neg h16, if_neg h16]
          exact ih f2 _ _ _ (by omega) (by omega)
      · rw [if_neg hlt, if_neg hlt]

theorem ilog2_aux_spec : ∀ (fuel n : Nat), 1 ≤ n → n ≤ fuel →
    2 ^ ilog2_aux fuel n ≤ n ∧ n < 2 ^ (ilog2_aux fuel n + 1) := by
  intro fuel
  induction fuel with
  | zero => intro n h1 h2; omega
  | succ f ih =>
    intro n h1 h2
    unfold ilog2_aux
    by_cases hn : n < 2
    · rw [if_pos hn]
      have : n = 1 := by omega
      subst this
      simp
    · rw [if_neg hn]
      obtain ⟨a, b⟩ := ih (n / 2) (by omega) (by omega)
      rw [pow_succ, pow_succ]
      constructor <;> omega

/-- `ilog2` is the floor of the binary logarithm. -/
theorem ilog2_spec (n : Nat) (h : 1 ≤ n) : 2 ^ ilog2 n ≤ n ∧ n < 2 ^ (ilog2 n + 1) :=
  ilog2_aux_spec n n h (le_refl _)

/-- Known roundings: `0.1` is `3602879701896397 / 2^55`, an integer below
`2^53` is kept, `2^53 + 1` is a tie and goes to the even `2^53`, `2^53 + 3`
goes to `2^53 + 4`, and `2^63 - 1` goes to `2^63`. -/
theorem round_nearest_even_samples :
    round_nearest_even 1 10 = (2 * 3602879701896397, 2 ^ 56)
      ∧ round_nearest_even 255 1 = (255 * 2 ^ 45, 2 ^ 45)
      ∧ round_nearest_even (2 ^ 53 + 1) 1 = (2 ^ 53, 1)
      ∧ round_nearest_even (2 ^ 53 + 3) 1 = (2 ^ 53 + 4, 1)
      ∧ round_nearest_even (2 ^ 63 - 1) 1 = (2 ^ 63, 1) := by
  decide

/-- The fuel of `ndigits_loop` is not limiting: for a base of at least 2 the
loop returns, with the number `d` of base-`base` digits of `num` added to the
count. -/
theorem ndigits_loop_spec (base : Nat) (hb : 2 ≤ base) :
    ∀ (fuel num count : Nat), num < fuel →
      ∃ d, 1 ≤ d ∧ ndigits_loop (base : Int) fuel (num : Int) count = some (count + d)
        ∧ num < base ^ d ∧ (d = 1 ∨ base ^ (d - 1) ≤ num) := by
  intro fuel
  induction fuel with
  | zero => intro num count h; omega
  | succ f ih =>
    intro num count h
    unfold ndigits_loop
    have hdiv : Int.tdiv (num : Int) (base : Int) = ((num / base : Nat) : Int) := by
      rw [Int.tdiv_eq_ediv (by positivity) (by positivity)]
      norm_cast
    simp only [hdiv]
    by_cases hz : num / base = 0
    · rw [if_neg (by rw [hz]; simp)]
      refine ⟨1, le_refl _, rfl, ?_, Or.inl rfl⟩
      rw [pow_one]
      exact (Nat.div_eq_zero_iff (by omega)).mp hz
    · rw [if_pos (by exact_mod_cast hz)]
      have hlt : num / base < f := by
        have : num / base < num := Nat.div_lt_self (by
          rcases Nat.eq_zero_or_pos num with h0 | h0
          · subst h0; simp at hz
          · exact h0) hb
        omega
      obtain ⟨d, hd1, hd2, hd3, hd4⟩ := ih (num / base) (count + 1) hlt
      refine ⟨d + 1, by omega, ?_, ?_, Or.inr ?_⟩
      · rw [hd2]; congr 1; omega
      · rw [pow_succ]
        exact (Nat.div_lt_iff_lt_mul (by omega)).mp hd3
      · simp only [Nat.add_sub_cancel]
        rcases hd4 with h1 | h1
        · subst h1
          rw [pow_one]
          by_contra hc
          exact hz ((Nat.div_eq_zero_iff (by omega)).mpr (by omega))
        · obtain ⟨e, rfl⟩ : ∃ e, d = e + 1 := ⟨d - 1, by omega⟩
          simp only [Nat.add_sub_cancel] at h1
          rw [pow_succ]
          calc base ^ e * base ≤ (num / base) * base := Nat.mul_le_mul_right _ h1
            _ ≤ num := Nat.div_mul_le_self _ _

/-! ## C19: the range of the accumulator -/

theorem digit_step_range (b : Int) (dv pv : Nat) (r : Int) (pv1 : Nat) (r1 : Int)
    (h0 : 0 ≤ r) (h1 : r ≤ LLONG_MAX) (h : digit_step b dv pv r = .next pv1 r1) :
    0 ≤ r1 ∧ r1 ≤ LLONG_MAX := by
  have hL : LLONG_MAX = 9223372036854775807 := by decide
  unfold digit_step at h
  split_ifs at h with c1 c2
  injection h with _ hr
  have hadd : (((dv * pv) % 2 ^ 64 : Nat) : Int) ≤ LLONG_MAX := by
    rcases Nat.eq_zero_or_pos dv with hz | hpos
    · subst hz; rw [hL]; simp
    · have hle : ¬ ((pv : Int) > Int.tdiv LLONG_MAX (dv : Int)) := fun hc => c1 ⟨by omega, hc⟩
      rw [Int.tdiv_eq_ediv (by rw [hL]; decide) (by omega)] at hle
      have h2 : (pv : Int) ≤ LLONG_MAX / (dv : Int) := by omega
      have h3 : (pv : Int) * (dv : Int) ≤ LLONG_MAX :=
        (Int.le_ediv_iff_mul_le (by exact_mod_cast hpos)).mp h2
      have h4 : ((dv * pv : Nat) : Int) ≤ LLONG_MAX := by
        push_cast; rw [Int.mul_comm]; exact h3
      have h5 : dv * pv % 2 ^ 64 ≤ dv * pv := Nat.mod_le _ _
      have h6 : ((dv * pv % 2 ^ 64 : Nat) : Int) ≤ ((dv * pv : Nat) : Int) := by exact_mod_cast h5
      omega
  have hpos : (0 : Int) ≤ (((dv * pv) % 2 ^ 64 : Nat) : Int) := by positivity
  generalize (((dv * pv) % 2 ^ 64 : Nat) : Int) = t at hadd hpos c2 hr
  rw [hL] at h1 hadd
  have e1 : r % 2 ^ 64 = r := Int.emod_eq_of_lt h0 (by omega)
  have e2 : (LLONG_MAX - t) % 2 ^ 64 = LLONG_MAX - t := by
    rw [hL]; exact Int.emod_eq_of_lt (by omega) (by omega)
  rw [e1, e2, hL] at c2
  rw [to_llong_of_range _ (by omega) (by rw [hL]; omega)] at hr
  rw [hL]
  omega

/-- One step of the scan keeps the result within `[0, LLONG_MAX]`. -/
theorem tonum_body_range (sys : numsys_t) (valid : List Nat) (si : Nat) (sg : Bool)
    (i c pv : Nat) (r : Int) (pv1 : Nat) (r1 : Int) (h0 : 0 ≤ r) (h1 : r ≤ LLONG_MAX)
    (h : tonum_body sys valid si sg i c pv r = .next pv1 r1) :
    0 ≤ r1 ∧ r1 ≤ LLONG_MAX := by
  cases hv : strchr valid c
  · rw [body_invalid _ _ _ _ _ _ _ _ hv] at h; cases h
  · by_cases hm : c = 45
    · subst hm
      unfold tonum_body at h
      simp only [hv] at h
      split_ifs at h <;> first
        | (injection h with _ hr; subst hr; exact ⟨h0, h1⟩)
        | (exfalso; simp_all)
    · cases hs : strchr IGNORE c
      · rw [body_digit _ _ _ _ _ _ _ _ hv hs hm] at h
        exact digit_step_range _ _ _ _ _ _ h0 h1 h
      · rw [body_sep _ _ _ _ _ _ _ _ hv hs hm] at h
        injection h with _ hr
        subst hr
        exact ⟨h0, h1⟩

/-- A value returned by the loop of `numsys_tonum` entered with a result in
`[0, LLONG_MAX]` lies in `[-LLONG_MAX, LLONG_MAX]`, is not positive on a
signed text and not negative on an unsigned one. -/
theorem tonum_loop_range (s : List Nat) (sys : numsys_t) (valid : List Nat) (si : Nat)
    (sg : Bool) (errno : Int) :
    ∀ (i pv : Nat) (r : Int) (v e : Int), 0 ≤ r → r ≤ LLONG_MAX →
      tonum_loop s sys valid si sg errno i pv r = .ret v e →
        -LLONG_MAX ≤ v ∧ v ≤ LLONG_MAX ∧ (sg = true → v ≤ 0) ∧ (sg = false → 0 ≤ v) := by
  have hL : LLONG_MAX = 9223372036854775807 := by decide
  have hLm : LLONG_MIN = -9223372036854775808 := by decide
  have hzero : -LLONG_MAX ≤ (0 : Int) ∧ (0 : Int) ≤ LLONG_MAX ∧ (sg = true → (0 : Int) ≤ 0)
      ∧ (sg = false → (0 : Int) ≤ 0) := by
    rw [hL]; exact ⟨by omega, by omega, fun _ => le_refl _, fun _ => le_refl _⟩
  have hfin : ∀ (r1 v e : Int), 0 ≤ r1 → r1 ≤ LLONG_MAX →
      (if sg = true then (if r1 = LLONG_MIN then Outcome.ret 0 EOVERFLOW
        else Outcome.ret (-r1) errno) else Outcome.ret r1 errno) = Outcome.ret v e →
      -LLONG_MAX ≤ v ∧ v ≤ LLONG_MAX ∧ (sg = true → v ≤ 0) ∧ (sg = false → 0 ≤ v) := by
    intro r1 v e a b h
    rw [hL] at b ⊢
    split_ifs at h with c1 c2
    · injection h with hv _; subst hv
      exact ⟨by omega, by omega, fun _ => le_refl _, fun _ => le_refl _⟩
    · injection h with hv _; subst hv
      exact ⟨by omega, by omega, fun _ => by omega, fun hc => by rw [c1] at hc; cases hc⟩
    · injection h with hv _; subst hv
      exact ⟨by omega, by omega, fun hc => absurd hc c1, fun _ => a⟩
  intro i
  induction i with
  | zero =>
    intro pv r v e h0 h1 h
    rw [tonum_loop] at h
    cases hg : s.get? 0 with
    | none => rw [hg] at h; cases h
    | some cur =>
      rw [hg] at h
      simp only [] at h
      cases hbd : tonum_body sys valid si sg 0 cur pv r with
      | exit e1 =>
        rw [hbd] at h
        injection h with hv _; subst hv
        exact hzero
      | next pv1 r1 =>
        rw [hbd] at h
        simp only [] at h
        obtain ⟨a, b⟩ := tonum_body_range _ _ _ _ _ _ _ _ _ _ h0 h1 hbd
        by_cases hst : 0 = (if sys.rep ≠ NEG_SIGN then 1 else 0)
        · rw [if_pos hst] at h
          exact hfin r1 v e a b h
        · rw [if_neg hst] at h
          cases h
  | succ j ih =>
    intro pv r v e h0 h1 h
    rw [tonum_loop] at h
    cases hg : s.get? (j + 1) with
    | none => rw [hg] at h; cases h
    | some cur =>
      rw [hg] at h
      simp only [] at h
      cases hbd : tonum_body sys valid si sg (j + 1) cur pv r with
      | exit e1 =>
        rw [hbd] at h
        injection h with hv _; subst hv
        exact hzero
      | next pv1 r1 =>
        rw [hbd] at h
        simp only [] at h
        obtain ⟨a, b⟩ := tonum_body_range _ _ _ _ _ _ _ _ _ _ h0 h1 hbd
        by_cases hst : j + 1 = (if sys.rep ≠ NEG_SIGN then 1 else 0)
        · rw [if_pos hst] at h
          exact hfin r1 v e a b h
        · rw [if_neg hst] at h
          exact ih _ _ _ _ a b h

/-- A value returned by `numsys_tonum` lies in `[-LLONG_MAX, LLONG_MAX]`; on a
text whose first non-separator character stands at `si` it is not positive
when the text is signed and not negative otherwise. -/
theorem numsys_tonum_range (text : Option (List Nat)) (sys : numsys_t) (errno v e : Int)
    (h : numsys_tonum text sys errno = .ret v e) :
    -LLONG_MAX ≤ v ∧ v ≤ LLONG_MAX ∧
      ∀ s si, text = some s → locate_sign s = some si →
        ((((decide (sys.rep ≠ NEG_SIGN) && decide (s.getD si 0 ≠ 48))
            || decide (s.getD si 0 = 45)) = true → v ≤ 0)
          ∧ (((decide (sys.rep ≠ NEG_SIGN) && decide (s.getD si 0 ≠ 48))
            || decide (s.getD si 0 = 45)) = false → 0 ≤ v)) := by
  have hL : LLONG_MAX = 9223372036854775807 := by decide
  have hz : -LLONG_MAX ≤ (0 : Int) ∧ (0 : Int) ≤ LLONG_MAX := by rw [hL]; omega
  unfold numsys_tonum at h
  cases text with
  | none =>
    injection h with hv _; subst hv
    exact ⟨hz.1, hz.2, fun s si hs => by cases hs⟩
  | some s =>
    simp only [] at h
    split_ifs at h with hinv
    · injection h with hv _; subst hv
      exact ⟨hz.1, hz.2, fun _ _ _ _ => ⟨fun _ => le_refl _, fun _ => le_refl _⟩⟩
    · cases hl : locate_sign s with
      | none => rw [hl] at h; cases h
      | some si =>
        rw [hl] at h
        simp only [] at h
        cases hn : s.length with
        | zero => rw [hn] at h; cases h
        | succ n =>
          rw [hn] at h
          simp only [] at h
          obtain ⟨a, b, c, d⟩ := tonum_loop_range _ _ _ _ _ _ _ _ _ _ _
            (by split_ifs <;> decide) (by split_ifs <;> decide) h
          refine ⟨a, b, ?_⟩
          intro s1 si1 hs1 hsi1
          injection hs1 with hs1
          subst hs1
          rw [hl] at hsi1
          injection hsi1 with hsi1
          subst hsi1
          exact ⟨c, d⟩

/-- C19. In `numsys_tonum` the running result stays within `[0, 2^63-1]`: it
starts at 0 or 1, each step of the scan keeps it in that range, so that the
test `result == LLONG_MIN` never holds and every value returned lies in
`[-(2^63-1), 2^63-1]`, never `-2^63`; in particular the two's-complement text
of `-2^63` in base 2, the sign digit followed by 63 zeros, fails with
`EOVERFLOW`, and the bound `-(2^63-1)` is reached by the decimal text
`"-9223372036854775807"`. -/
theorem tonum_accumulator_range :
    (∀ (sys : numsys_t) (valid : List Nat) (si : Nat) (sg : Bool) (i c pv : Nat) (r : Int)
        (pv1 : Nat) (r1 : Int), 0 ≤ r → r ≤ 2 ^ 63 - 1 →
        tonum_body sys valid si sg i c pv r = .next pv1 r1 →
          0 ≤ r1 ∧ r1 ≤ 2 ^ 63 - 1 ∧ r1 ≠ LLONG_MIN)
      ∧ (∀ (text : Option (List Nat)) (sys : numsys_t) (errno v e : Int),
          numsys_tonum text sys errno = .ret v e →
            -(2 ^ 63 - 1) ≤ v ∧ v ≤ 2 ^ 63 - 1 ∧ v ≠ -(2 ^ 63))
      ∧ numsys_tonum (some (49 :: List.replicate 63 48)) ⟨2, TWOS_COMPL⟩ 0
          = .ret 0 EOVERFLOW
      ∧ numsys_tonum (some (cstr "-9223372036854775807")) ⟨10, NEG_SIGN⟩ 0
          = .ret (-(2 ^ 63 - 1)) 0 := by
  have hL : LLONG_MAX = 2 ^ 63 - 1 := by decide
  have hLm : LLONG_MIN = -(2 ^ 63) := by decide
  refine ⟨?_, ?_, by decide, by decide⟩
  · intro sys valid si sg i c pv r pv1 r1 h0 h1 h
    obtain ⟨a, b⟩ := tonum_body_range sys valid si sg i c pv r pv1 r1 h0 (by rw [hL]; exact h1) h
    rw [hL] at b
    exact ⟨a, b, by rw [hLm]; omega⟩
  · intro text sys errno v e h
    obtain ⟨a, b, _⟩ := numsys_tonum_range text sys errno v e h
    rw [hL] at a b
    exact ⟨a, b, by omega⟩

theorem tonum_accumulator_range_witness :
    -(2 ^ 63 - 1) ≤ (-1 : Int) ∧ (-1 : Int) ≤ 2 ^ 63 - 1 ∧ (-1 : Int) ≠ -(2 ^ 63) :=
  tonum_accumulator_range.2.1 (some (cstr "1111")) ⟨2, TWOS_COMPL⟩ 0 (-1) 0 (by decide)

/-! ## C16: the lenient sign digit -/

theorem locate_sign_cons_nonsep (c : Nat) (cs : List Nat) (h : strchr IGNORE c = false) :
    locate_sign (c :: cs) = some 0 := by
  simp [locate_sign, h]

/-- Under a scheme other than `NEG_SIGN`, on a text of at least two characters
whose first character is not a separator, `numsys_tonum` looks at that first
character only to compare it with `'0'`. -/
theorem tonum_first_char (b : Int) (rep : Nat) (hb : inval_base b = false)
    (hr : inval_rep rep = false) (hrep : rep ≠ NEG_SIGN) (c c1 : Nat) (rest : List Nat)
    (hne : rest ≠ []) (hc : strchr IGNORE c = false) (hc1 : strchr IGNORE c1 = false)
    (h48 : (c = 48) ↔ (c1 = 48)) (errno : Int) :
    numsys_tonum (some (c :: rest)) ⟨b, rep⟩ errno
      = numsys_tonum (some (c1 :: rest)) ⟨b, rep⟩ errno := by
  have hstop : stop_index ⟨b, rep⟩ = 1 := by simp [stop_index, hrep]
  have hlen : 0 < rest.length := List.length_pos.mpr hne
  rw [numsys_tonum_eq (c :: rest) ⟨b, rep⟩ errno 0 hb hr (locate_sign_cons_nonsep c rest hc)
      (by rw [hstop]; simp; omega),
    numsys_tonum_eq (c1 :: rest) ⟨b, rep⟩ errno 0 hb hr (locate_sign_cons_nonsep c1 rest hc1)
      (by rw [hstop]; simp; omega)]
  rw [hstop]
  have hsg : ((decide ((⟨b, rep⟩ : numsys_t).rep ≠ NEG_SIGN) && decide ((c :: rest).getD 0 0 ≠ 48))
        || decide ((c :: rest).getD 0 0 = 45))
      = ((decide ((⟨b, rep⟩ : numsys_t).rep ≠ NEG_SIGN) && decide ((c1 :: rest).getD 0 0 ≠ 48))
        || decide ((c1 :: rest).getD 0 0 = 45)) := by
    simp only [List.getD_cons_zero, hrep, ne_eq, not_false_eq_true, decide_True, Bool.true_and]
    by_cases hc48 : c = 48
    · have hc148 : c1 = 48 := h48.mp hc48
      subst hc48; subst hc148; rfl
    · have hc148 : ¬ c1 = 48 := fun h => hc48 (h48.mpr h)
      simp [hc48, hc148]
  rw [hsg]
  rfl

/-- C16. For every base `b` in `[3,36]`, every scheme among `SIGN_PLACE`,
`ONES_COMPL` and `TWOS_COMPL`, every non-empty `rest` and every two digit
characters `c`, `c1` of non-zero value below `b`: `numsys_tonum` has the same
outcome on `c` followed by `rest` and on `c1` followed by `rest`, a value it
returns there is at most 0, and a value it returns on `'0'` followed by `rest`
is at least 0. -/
theorem tonum_lenient_sign_digit (b : Nat) (hb3 : 3 ≤ b) (hb36 : b ≤ 36) (rep : Nat)
    (hrep : rep = SIGN_PLACE ∨ rep = ONES_COMPL ∨ rep = TWOS_COMPL) (rest : List Nat)
    (hne : rest ≠ []) (c c1 : Nat)
    (hc : is_digit_of b c = true ∧ digit_value c ≠ some 0)
    (hc1 : is_digit_of b c1 = true ∧ digit_value c1 ≠ some 0) (errno : Int) :
    numsys_tonum (some (c :: rest)) ⟨(b : Int), rep⟩ errno
        = numsys_tonum (some (c1 :: rest)) ⟨(b : Int), rep⟩ errno
      ∧ (∀ v e, numsys_tonum (some (c :: rest)) ⟨(b : Int), rep⟩ errno = .ret v e → v ≤ 0)
      ∧ (∀ v e, numsys_tonum (some (48 :: rest)) ⟨(b : Int), rep⟩ errno = .ret v e → 0 ≤ v) := by
  have hbase : inval_base (b : Int) = false := by
    simp [inval_base]; omega
  have hr : inval_rep rep = false := by
    rcases hrep with h | h | h <;> subst h <;> decide
  have hnn : rep ≠ NEG_SIGN := by
    rcases hrep with h | h | h <;> subst h <;> decide
  have hfacts : ∀ x, is_digit_of b x = true ∧ digit_value x ≠ some 0 →
      strchr IGNORE x = false ∧ x ≠ 48 ∧ x ≠ 45 := by
    intro x hx
    obtain ⟨d, hd, _⟩ := is_digit_of_value b x hx.1
    obtain ⟨f1, f2, f3, f4, f5⟩ := digit_value_facts x d hd
    refine ⟨f3, ?_, f1⟩
    rintro rfl
    exact hx.2 (by decide)
  obtain ⟨g1, g2, g3⟩ := hfacts c hc
  obtain ⟨k1, k2, k3⟩ := hfacts c1 hc1
  refine ⟨?_, ?_, ?_⟩
  · exact tonum_first_char (b : Int) rep hbase hr hnn c c1 rest hne g1 k1
      ⟨fun h => absurd h g2, fun h => absurd h k2⟩ errno
  · intro v e h
    obtain ⟨_, _, hs⟩ := numsys_tonum_range _ _ _ _ _ h
    refine (hs (c :: rest) 0 rfl (locate_sign_cons_nonsep c rest g1)).1 ?_
    simp [hnn, g2]
  · intro v e h
    obtain ⟨_, _, hs⟩ := numsys_tonum_range _ _ _ _ _ h
    refine (hs (48 :: rest) 0 rfl (locate_sign_cons_nonsep 48 rest (by decide))).2 ?_
    simp

theorem tonum_lenient_sign_digit_witness :
    numsys_tonum (some (cstr "201")) ⟨((3 : Nat) : Int), SIGN_PLACE⟩ 0
        = numsys_tonum (some (cstr "101")) ⟨((3 : Nat) : Int), SIGN_PLACE⟩ 0
      ∧ (∀ v e, numsys_tonum (some (cstr "201")) ⟨((3 : Nat) : Int), SIGN_PLACE⟩ 0 = .ret v e
          → v ≤ 0)
      ∧ (∀ v e, numsys_tonum (some (cstr "001")) ⟨((3 : Nat) : Int), SIGN_PLACE⟩ 0 = .ret v e
          → 0 ≤ v) :=
  tonum_lenient_sign_digit 3 (by decide) (by decide) SIGN_PLACE (Or.inl rfl) (cstr "01")
    (by decide) 50 49 (by decide) (by decide) 0

/-! ## C11: a minus sign outside the sign position -/

/-- Under `SIGN_PLACE` in base 2 the text `"-1"` parses to `-1`: the scan ends
at index 1 and the character of index 0 is only compared with `'0'`. -/
theorem tonum_minus_at_index_zero :
    numsys_tonum (some (cstr "-1")) ⟨2, SIGN_PLACE⟩ 0 = .ret (-1) 0 := by
  decide

/-! ## Evaluations of the code at failing inputs (continued) -/

/-- C13 (failing input). In base 1 the value 5 is formatted as `"00000"`, but
at 0 the loop, which always runs once, writes at index `UINT_MAX` of a buffer
of one byte, and at `2^32-1` the size `NCHRS + 1` wraps to 0: neither call has
a defined result. -/
theorem unary_undefined_at_zero :
    numsys_tostring 5 ⟨1, NEG_SIGN⟩ 0 = .ret (some (cstr "00000")) 0
      ∧ numsys_tostring 0 ⟨1, NEG_SIGN⟩ 0 = .undef
      ∧ numsys_tostring (2 ^ 32 - 1) ⟨1, NEG_SIGN⟩ 0 = .undef := by
  decide!

/-- C14 (failing input). With `errno` clear on entry 5 is formatted as `"5"`
and `"FF"` converted to `"11111111"`; with `errno` holding `EINVAL` on entry
the same calls return the null pointer. -/
theorem errno_on_entry_changes_outcome :
    numsys_tostring 5 ⟨10, NEG_SIGN⟩ 0 = .ret (some (cstr "5")) 0
      ∧ numsys_tostring 5 ⟨10, NEG_SIGN⟩ EINVAL = .ret none EINVAL
      ∧ numsys_conv (some (cstr "FF")) ⟨16, NEG_SIGN⟩ ⟨2, NEG_SIGN⟩ 0
          = .ret (some (cstr "11111111")) 0
      ∧ numsys_conv (some (cstr "FF")) ⟨16, NEG_SIGN⟩ ⟨2, NEG_SIGN⟩ EINVAL
          = .ret none EINVAL := by
  decide!

/-- C15 (failing input). Under `SIGN_PLACE` in base 2 the text `"11"` parses to
`-1`, and `" 11"`, the same digits after a space, parses to `-3`: the sign
digit is added to the magnitude. -/
theorem leading_separator_changes_value :
    numsys_tonum (some (cstr "11")) ⟨2, SIGN_PLACE⟩ 0 = .ret (-1) 0
      ∧ numsys_tonum (some (cstr " 11")) ⟨2, SIGN_PLACE⟩ 0 = .ret (-3) 0 := by
  decide

/-- C17 (failing input). The buffer of `valid_chrs` for base 10 under
`SIGN_PLACE` holds `'a'`, a digit symbol of value 10, without `'A'`; the
buffer for base 9 under `NEG_SIGN` holds `'9'`. -/
theorem valid_chrs_holds_stray_symbol :
    strchr (valid_chrs ⟨10, SIGN_PLACE⟩) 97 = true
      ∧ digit_value 97 = some 10
      ∧ strchr (valid_chrs ⟨10, SIGN_PLACE⟩) 65 = false
      ∧ strchr (valid_chrs ⟨9, NEG_SIGN⟩) 57 = true
      ∧ digit_value 57 = some 9 := by
  decide

/-- C18 (failing input). Under `ONES_COMPL` in base 16 the value -255 is
formatted as `"F00"`, the complement of `"FF"`, but at `-(2^63-1)` in base 10
the first quotient does not convert to `long long`: the call has no defined
result. -/
theorem ones_complement_undefined_at_llong_min_plus_1 :
    numsys_tostring 255 ⟨16, NEG_SIGN⟩ 0 = .ret (some (cstr "FF")) 0
      ∧ numsys_tostring (-255) ⟨16, ONES_COMPL⟩ 0 = .ret (some (cstr "F00")) 0
      ∧ numsys_tostring (-(2 ^ 63 - 1)) ⟨10, ONES_COMPL⟩ 0 = .undef := by
  decide!

/-- C20 (failing input). In base 1 under `NEG_SIGN` the text of 5, `"00000"`,
parses to 0; at `2^32-1` `numsys_tostring` allocates `NCHRS + 1 = 0` bytes
(the sum wraps) and writes at index `2^32-2`, so that there is no text to
parse. -/
theorem unary_round_trip_undefined_at_uint_max :
    numsys_tostring 5 ⟨1, NEG_SIGN⟩ 0 = .ret (some (cstr "00000")) 0
      ∧ numsys_tonum (some (cstr "00000")) ⟨1, NEG_SIGN⟩ 0 = .ret 0 0
      ∧ numsys_tostring (-(2 ^ 32 - 1)) ⟨1, NEG_SIGN⟩ 0 = .undef := by
  decide!

/-! ## Unary texts -/

/-- Under `NEG_SIGN`, in every base from 1 on, a non-empty text of digit
characters of the base whose positional value fits parses to that value. -/
theorem tonum_neg_sign_digits (b : Nat) (hb1 : 1 ≤ b) (hb36 : b ≤ 36) (ds : List Nat)
    (hne : ds ≠ []) (hd : ∀ c ∈ ds, is_digit_of b c = true)
    (hm : positional_value b ds ≤ 2 ^ 63 - 1) (errno : Int) :
    numsys_tonum (some ds) ⟨(b : Int), NEG_SIGN⟩ errno
      = .ret (positional_value b ds : Int) errno := by
  have hL : LLONG_MAX = 9223372036854775807 := by decide
  have hbase : inval_base (b : Int) = false := by
    simp [inval_base]; omega
  have hrep : inval_rep NEG_SIGN = false := by decide
  have hstop : stop_index ⟨(b : Int), NEG_SIGN⟩ = 0 := by simp [stop_index]
  obtain ⟨c0, cs, rfl⟩ := List.exists_cons_of_ne_nil hne
  obtain ⟨d0, hd0, _⟩ := is_digit_of_value b c0 (hd c0 (List.mem_cons_self _ _))
  obtain ⟨f1, f2, f3, f4, f5⟩ := digit_value_facts c0 d0 hd0
  have h := scan_from_digits ⟨(b : Int), NEG_SIGN⟩ (valid_chrs ⟨(b : Int), NEG_SIGN⟩) 0 false b rfl
    (fun c => (digit_value c).getD 0) (c0 :: cs) 0 0 1 0
    (fun c hc i pv1 r1 =>
      body_plain_digit b hb1 hb36 NEG_SIGN 0 false (Or.inl (by decide)) c (hd c hc) i pv1 r1)
    (by simp) (le_refl _)
    (by rw [← positional_value_eq, hL]; simp only [pow_zero, one_mul, zero_add]
        exact_mod_cast hm)
  rw [numsys_tonum_eq (c0 :: cs) _ errno 0 hbase hrep (locate_sign_cons_digit c0 d0 cs hd0)
    (by rw [hstop]; simp)]
  rw [hstop, List.drop_zero]
  have hsg : ((decide ((⟨(b : Int), NEG_SIGN⟩ : numsys_t).rep ≠ NEG_SIGN)
      && decide ((c0 :: cs).getD 0 0 ≠ 48)) || decide ((c0 :: cs).getD 0 0 = 45)) = false := by
    simp [f1]
  rw [hsg]
  have hr0 : (if (⟨(b : Int), NEG_SIGN⟩ : numsys_t).rep = TWOS_COMPL ∧ false = true
      then (1 : Int) else 0) = 0 := by simp
  rw [hr0, h, ← positional_value_eq]
  simp [finish]

theorem positional_value_zeros (b n : Nat) : positional_value b (List.replicate n 48) = 0 := by
  induction n with
  | zero => rfl
  | succ n ih =>
    rw [List.replicate_succ, positional_value, ih]
    have : digit_value 48 = some 0 := by decide
    rw [this]
    simp

/-- In base 1 under `NEG_SIGN` every text of one or more characters `'0'`
parses to 0, whatever its length. -/
theorem tonum_unary_zeros (n : Nat) (errno : Int) :
    numsys_tonum (some (List.replicate (n + 1) 48)) ⟨1, NEG_SIGN⟩ errno = .ret 0 errno := by
  have h := tonum_neg_sign_digits 1 (le_refl _) (by decide) (List.replicate (n + 1) 48)
    (by simp) (fun c hc => by rw [List.eq_of_mem_replicate hc]; decide)
    (by rw [positional_value_zeros]; decide) errno
  rw [positional_value_zeros] at h
  exact h

/-! ## Exact quotients and the unary formatter -/

/-- A fraction whose value is an integer below `2^53` is not changed by the
rounding to binary64. -/
theorem round_nearest_even_exact (a d : Nat) (hd : 0 < d) (ha : a < 2 ^ 53) :
    ∃ s : Nat, round_nearest_even (a * d) d = (a * 2 ^ s, 2 ^ s) := by
  rcases Nat.eq_zero_or_pos a with h0 | hpos
  · subst h0
    exact ⟨0, by simp [round_nearest_even]⟩
  · have hn0 : a * d ≠ 0 := Nat.mul_ne_zero (by omega) (by omega)
    have hn1 : 1 ≤ a * d := Nat.one_le_iff_ne_zero.mpr hn0
    obtain ⟨n1, n2⟩ := ilog2_spec (a * d) hn1
    obtain ⟨d1, d2⟩ := ilog2_spec d hd
    -- the exponent chosen by the rounding is at most 52
    have hk : ilog2 (a * d) < ilog2 d + 54 := by
      have h1 : a * d < 2 ^ 53 * 2 ^ (ilog2 d + 1) :=
        Nat.mul_lt_mul'' ha d2
      have h2 : 2 ^ ilog2 (a * d) < 2 ^ (ilog2 d + 54) := by
        calc 2 ^ ilog2 (a * d) ≤ a * d := n1
          _ < 2 ^ 53 * 2 ^ (ilog2 d + 1) := h1
          _ = 2 ^ (ilog2 d + 54) := by rw [← pow_add]; congr 1; omega
      exact (Nat.pow_lt_pow_iff_right (by decide)).mp h2
    have he : (if d * 2 ^ ((ilog2 (a * d) : Int) - (ilog2 d : Int)).toNat
          ≤ a * d * 2 ^ (-((ilog2 (a * d) : Int) - (ilog2 d : Int))).toNat
        then ((ilog2 (a * d) : Int) - (ilog2 d : Int))
        else ((ilog2 (a * d) : Int) - (ilog2 d : Int)) - 1) ≤ 52 := by
      split
      · rename_i htest
        by_contra hc
        have hk53 : (ilog2 (a * d) : Int) - (ilog2 d : Int) = 53 := by omega
        rw [hk53] at htest
        have e1 : (53 : Int).toNat = 53 := rfl
        have e2 : (-(53 : Int)).toNat = 0 := rfl
        rw [e1, e2, pow_zero, Nat.mul_one] at htest
        have : d * 2 ^ 53 ≤ d * a := by rw [Nat.mul_comm d a]; exact htest
        have := Nat.le_of_mul_le_mul_left this hd
        omega
      · omega
    unfold round_nearest_even
    rw [if_neg hn0]
    simp only []
    generalize (if d * 2 ^ ((ilog2 (a * d) : Int) - (ilog2 d : Int)).toNat
          ≤ a * d * 2 ^ (-((ilog2 (a * d) : Int) - (ilog2 d : Int))).toNat
        then ((ilog2 (a * d) : Int) - (ilog2 d : Int))
        else ((ilog2 (a * d) : Int) - (ilog2 d : Int)) - 1) = e at he
    have hs : (-(52 - e)).toNat = 0 := by omega
    rw [hs, pow_zero, Nat.mul_one, Nat.mul_one]
    have hq : a * d * 2 ^ (52 - e).toNat / d = a * 2 ^ (52 - e).toNat := by
      rw [Nat.mul_right_comm, Nat.mul_div_cancel _ hd]
    have hr : a * d * 2 ^ (52 - e).toNat % d = 0 := by
      rw [Nat.mul_right_comm]; exact Nat.mul_mod_left _ _
    rw [hq, hr]
    refine ⟨(52 - e).toNat, ?_⟩
    rw [if_neg]
    rintro (h | h)
    · omega
    · omega

/-- Division by `pow(1, place)` in `double` gives back an integer below `2^53`. -/
theorem double_quotient_one (a place : Nat) (ha : a < 2 ^ 53) :
    double_to_ll (double_div (ll_to_double (a : Int)) (pow 1 place)) = some (a : Int) := by
  have hL : LLONG_MAX = 9223372036854775807 := by decide
  have hLm : LLONG_MIN = -9223372036854775808 := by decide
  obtain ⟨s1, h1⟩ := round_nearest_even_exact a 1 (by decide) ha
  obtain ⟨s2, h2⟩ := round_nearest_even_exact 1 1 (by decide) (by decide)
  obtain ⟨s3, h3⟩ := round_nearest_even_exact a (2 ^ s1 * (1 * 2 ^ s2)) (by positivity) ha
  have hx : ll_to_double (a : Int) = ⟨false, a * 2 ^ s1, 2 ^ s1⟩ := by
    unfold ll_to_double
    simp only [Int.natAbs_ofNat]
    rw [Nat.mul_one] at h1
    rw [h1]
    simp
  have hy : pow 1 place = ⟨false, 1 * 2 ^ s2, 2 ^ s2⟩ := by
    unfold pow
    have : (1 : Int).natAbs ^ place = 1 := by simp
    rw [this]
    rw [Nat.mul_one] at h2
    rw [h2]
  have hz : double_div ⟨false, a * 2 ^ s1, 2 ^ s1⟩ ⟨false, 1 * 2 ^ s2, 2 ^ s2⟩
      = ⟨false, a * 2 ^ s3, 2 ^ s3⟩ := by
    unfold double_div
    simp only []
    have : a * 2 ^ s1 * 2 ^ s2 = a * (2 ^ s1 * (1 * 2 ^ s2)) := by ring
    rw [this, h3]
    rfl
  rw [hx, hy, hz]
  unfold double_to_ll
  simp only [Bool.false_eq_true, if_false]
  rw [Nat.mul_div_cancel _ (by positivity)]
  rw [if_pos]
  rw [hL, hLm]
  constructor <;> omega

theorem tostring_digit_unary (rep : Nat) (sg : Bool) (a place : Nat) (ha : a < 2 ^ 53) :
    tostring_digit ⟨1, rep⟩ false sg (a : Int) place = some 0 := by
  unfold tostring_digit
  simp only [Bool.false_eq_true, false_and, if_false]
  rw [double_quotient_one a place ha]
  simp [Int.tdiv_one]

/-- One iteration of the loop of `numsys_tostring`. -/
theorem tostring_loop_unfold (sys : numsys_t) (hsp sg : Bool) (A : Int) (i place : Nat)
    (result : List Nat) :
    tostring_loop sys hsp sg A i place result =
      match tostring_digit sys hsp sg A place with
      | none => none
      | some digit_val =>
        if i < result.length then
          if i = (if hsp then 1 else 0) then
            some (result.set i
              (to_char (digit_val + (if 0 ≤ digit_val ∧ digit_val ≤ 9 then 48 else 55))))
          else
            match i with
            | 0 => none
            | j + 1 =>
              tostring_loop sys hsp sg A j ((place + 1) % 2 ^ 32)
                (result.set i
                  (to_char (digit_val + (if 0 ≤ digit_val ∧ digit_val ≤ 9 then 48 else 55))))
        else none := by
  cases i with
  | zero =>
    delta tostring_loop
    cases h : tostring_digit sys hsp sg A place <;> simp only [Nat.brecOn, Nat.rec_zero, h]
  | succ j =>
    delta tostring_loop
    cases h : tostring_digit sys hsp sg A place <;> simp only [Nat.brecOn, h]

/-- In base 1 the loop of `numsys_tostring` fills the indices `0..i` with `'0'`. -/
theorem tostring_loop_unary (rep : Nat) (sg : Bool) (a : Nat) (ha : a < 2 ^ 53) :
    ∀ (i place : Nat) (A B : List Nat), A.length = i + 1 →
      tostring_loop ⟨1, rep⟩ false sg (a : Int) i place (A ++ B)
        = some (List.replicate (i + 1) 48 ++ B) := by
  have hch : to_char (0 + (if (0 : Int) ≤ 0 ∧ (0 : Int) ≤ 9 then 48 else 55)) = 48 := by decide
  intro i
  induction i with
  | zero =>
    intro place A B hA
    obtain ⟨x, rfl⟩ : ∃ x, A = [x] := List.length_eq_one.mp hA
    rw [tostring_loop_unfold, tostring_digit_unary rep sg a place ha]
    simp only [hch]
    simp
  | succ j ih =>
    intro place A B hA
    obtain ⟨A1, x, rfl⟩ : ∃ A1 x, A = A1 ++ [x] := by
      have hne : A ≠ [] := by
        intro h; rw [h] at hA; simp at hA
      exact ⟨A.dropLast, A.getLast hne, (List.dropLast_append_getLast hne).symm⟩
    have hA1 : A1.length = j + 1 := by
      simp only [List.length_append, List.length_singleton] at hA; omega
    rw [tostring_loop_unfold, tostring_digit_unary rep sg a place ha]
    simp only [hch]
    have hlen : j + 1 < (A1 ++ [x] ++ B).length := by
      simp only [List.length_append, List.length_singleton]; omega
    rw [if_pos hlen]
    have hset : (A1 ++ [x] ++ B).set (j + 1) 48 = A1 ++ ([48] ++ B) := by
      rw [List.append_assoc, List.set_append_right _ _ (by omega), hA1, Nat.sub_self]
      rfl
    rw [hset]
    rw [if_neg (by simp)]
    rw [ih _ A1 ([48] ++ B) hA1]
    congr 1
    rw [← List.append_assoc]
    congr 1
    rw [List.replicate_succ' (j + 1)]

/-- In base 1, under every scheme, a value `v` with `1 ≤ |v| ≤ 2^32-2` is
formatted as `|v|` characters `'0'`, without sign position. -/
theorem tostring_unary (v : Int) (rep : Nat) (hr : inval_rep rep = false)
    (h1 : 1 ≤ |v|) (h2 : |v| ≤ 2 ^ 32 - 2) :
    numsys_tostring v ⟨1, rep⟩ 0 = .ret (some (List.replicate |v|.toNat 48)) 0 := by
  have hLm : LLONG_MIN = -9223372036854775808 := by decide
  have hU : UINT_MAX = 4294967295 := by decide
  obtain ⟨n, hn⟩ : ∃ n : Nat, |v| = (n : Int) := ⟨|v|.toNat, by omega⟩
  have hvmin : v ≠ LLONG_MIN := by
    intro h
    rw [h, hLm] at h2
    simp at h2
  rw [hn] at h1 h2
  have hn1 : 1 ≤ n := by omega
  have hn2 : n ≤ 4294967294 := by omega
  unfold numsys_tostring
  have hinv : (inval_base (⟨1, rep⟩ : numsys_t).base || inval_rep (⟨1, rep⟩ : numsys_t).rep)
      = false := by
    simp [inval_base, hr]
  rw [hinv]
  simp only [Bool.false_eq_true, if_false]
  have hnd : ndigits v 1 0 = .ret n 0 := by
    unfold ndigits
    rw [if_neg hvmin]
    simp only [if_true, hn]
    rw [if_neg (by rw [hU]; omega)]
    simp
  rw [hnd]
  simp only []
  rw [if_neg (by decide)]
  have hHSP : (((decide (rep = NEG_SIGN) && decide (v < 0)) || decide (rep ≠ NEG_SIGN))
      && decide ((1 : Int) ≠ 1)) = false := by simp
  simp only [hHSP, Bool.false_eq_true, if_false, hn]
  have hsize : (n + 0 + 1) % 2 ^ 32 = n + 1 := by
    rw [Nat.mod_eq_of_lt]; omega
  have hstart : ((((n : Int) + ((0 : Nat) : Int) - 1) % 2 ^ 32).toNat) = n - 1 := by
    rw [Int.emod_eq_of_lt (by omega) (by omega)]
    omega
  rw [hsize, hstart]
  have hbuf : List.replicate (n + 1) 0 = List.replicate n 0 ++ [0] := List.replicate_succ' ..
  rw [hbuf, tostring_loop_unary rep (decide (v < 0)) n (by omega) (n - 1) 0
    (List.replicate n 0) [0] (by simp; omega)]
  simp only []
  have hn' : n - 1 + 1 = n := by omega
  rw [hn']
  congr 2
  unfold c_str
  rw [List.takeWhile_append_of_pos (by
    intro x hx
    rw [List.eq_of_mem_replicate hx]
    decide)]
  simp

/-! ## The sign position of the output and the unary round trip -/

/-- A run of the loop of `numsys_tostring` that returns keeps the length of
the buffer, which is not empty. -/
theorem tostring_loop_some (sys : numsys_t) (hsp sg : Bool) (A : Int) :
    ∀ (i place : Nat) (result r : List Nat),
      tostring_loop sys hsp sg A i place result = some r →
        r.length = result.length ∧ 0 < result.length := by
  intro i
  induction i with
  | zero =>
    intro place result r h
    rw [tostring_loop_unfold] at h
    cases hd : tostring_digit sys hsp sg A place with
    | none => rw [hd] at h; simp at h
    | some d =>
      rw [hd] at h
      simp only [] at h
      generalize to_char (d + (if 0 ≤ d ∧ d ≤ 9 then 48 else 55)) = ch at h
      by_cases h1 : 0 < result.length
      · rw [if_pos h1] at h
        by_cases h2 : 0 = (if hsp then 1 else 0)
        · rw [if_pos h2] at h
          simp only [Option.some.injEq] at h
          rw [← h]
          exact ⟨List.length_set .., h1⟩
        · rw [if_neg h2] at h
          simp at h
      · rw [if_neg h1] at h
        simp at h
  | succ j ih =>
    intro place result r h
    rw [tostring_loop_unfold] at h
    cases hd : tostring_digit sys hsp sg A place with
    | none => rw [hd] at h; simp at h
    | some d =>
      rw [hd] at h
      simp only [] at h
      generalize to_char (d + (if 0 ≤ d ∧ d ≤ 9 then 48 else 55)) = ch at h
      by_cases h1 : j + 1 < result.length
      · rw [if_pos h1] at h
        by_cases h2 : j + 1 = (if hsp then 1 else 0)
        · rw [if_pos h2] at h
          simp only [Option.some.injEq] at h
          rw [← h]
          exact ⟨List.length_set .., by omega⟩
        · rw [if_neg h2] at h
          have := ih _ _ _ h
          rw [List.length_set] at this
          exact this
      · rw [if_neg h1] at h
        simp at h

/-- The maximum digit symbol of a base in `[2,36]` is not the terminator. -/
theorem to_char_max_digit_ne_zero (b : Int) (h2 : 2 ≤ b) (h36 : b ≤ 36) :
    to_char (max_digit b) ≠ 0 := by
  interval_cases b <;> decide

/-- Under a scheme with a sign digit and a base from 2 up, every string that
`numsys_tostring` returns begins with the maximum digit symbol of the base
for a negative value and with `'0'` otherwise. -/
theorem tostring_sign_position (v : Int) (b : Int) (rep : Nat) (h2 : 2 ≤ b) (h36 : b ≤ 36)
    (hrep : rep = SIGN_PLACE ∨ rep = ONES_COMPL ∨ rep = TWOS_COMPL)
    (s : List Nat) (e : Int)
    (h : numsys_tostring v ⟨b, rep⟩ 0 = .ret (some s) e) :
    s.head? = some (if v < 0 then to_char (max_digit b) else 48) := by
  have hne : rep ≠ NEG_SIGN := by
    rcases hrep with h | h | h <;> rw [h] <;> decide
  have hb1 : b ≠ 1 := by omega
  unfold numsys_tostring at h
  by_cases hinv : (inval_base (⟨b, rep⟩ : numsys_t).base || inval_rep (⟨b, rep⟩ : numsys_t).rep)
      = true
  · rw [if_pos hinv] at h
    simp at h
  rw [if_neg hinv] at h
  cases hnd : ndigits v b 0 with
  | undef => rw [hnd] at h; simp at h
  | ret N e1 =>
    rw [hnd] at h
    simp only [] at h
    by_cases he : e1 > 0
    · rw [if_pos he] at h
      simp at h
    rw [if_neg he] at h
    have hHSP : (((decide (rep = NEG_SIGN) && decide (v < 0)) || decide (rep ≠ NEG_SIGN))
        && decide (b ≠ 1)) = true := by simp [hne, hb1]
    rw [hHSP] at h
    simp only [if_true] at h
    cases hl : tostring_loop ⟨b, rep⟩ true (decide (v < 0)) |v|
        ((((N : Int) + ((1 : Nat) : Int) - 1) % 2 ^ 32).toNat) 0
        (List.replicate ((N + 1 + 1) % 2 ^ 32) 0) with
    | none => rw [hl] at h; simp at h
    | some r =>
      rw [hl] at h
      simp only [Outcome.ret.injEq, Option.some.injEq] at h
      obtain ⟨hlen, hpos⟩ := tostring_loop_some _ _ _ _ _ _ _ _ hl
      obtain ⟨x, xs, rfl⟩ : ∃ x xs, r = x :: xs := by
        cases r with
        | nil =>
          rw [← hlen] at hpos
          simp at hpos
        | cons x xs => exact ⟨x, xs, rfl⟩
      rw [← h.1]
      by_cases hv : v < 0
      · simp only [hv, decide_True, if_true, if_neg hne, List.set_cons_zero, c_str]
        rw [List.takeWhile_cons_of_pos (by
          simpa using to_char_max_digit_ne_zero b h2 h36)]
        rfl
      · simp only [hv, decide_False, Bool.false_eq_true, if_false, List.set_cons_zero, c_str]
        rfl

/-- In base 1 under `NEG_SIGN`, for `1 ≤ |v| ≤ 2^32-2` the text that
`numsys_tostring` returns is read back by `numsys_tonum` as 0. -/
theorem unary_round_trip_zero (v : Int) (h1 : 1 ≤ |v|) (h2 : |v| ≤ 2 ^ 32 - 2) :
    ∃ s, numsys_tostring v ⟨1, NEG_SIGN⟩ 0 = .ret (some s) 0
      ∧ numsys_tonum (some s) ⟨1, NEG_SIGN⟩ 0 = .ret 0 0 := by
  refine ⟨List.replicate |v|.toNat 48, tostring_unary v NEG_SIGN (by decide) h1 h2, ?_⟩
  obtain ⟨n, hn⟩ : ∃ n : Nat, |v|.toNat = n + 1 := ⟨|v|.toNat - 1, by omega⟩
  rw [hn]
  exact tonum_unary_zeros n 0

/-! ## C12: the sign position of the output -/

/-- One iteration of the loop of `numsys_tostring` with the conversion
resolved. -/
theorem tostring_loop_on_unfold (oor : Dbl → Int) (sys : numsys_t) (hsp sg : Bool) (A : Int)
    (i place : Nat) (result : List Nat) :
    tostring_loop_on oor sys hsp sg A i place result =
      if i < result.length then
        if i = (if hsp then 1 else 0) then
          some (result.set i (to_char (tostring_digit_on oor sys hsp sg A place
            + (if 0 ≤ tostring_digit_on oor sys hsp sg A place
                ∧ tostring_digit_on oor sys hsp sg A place ≤ 9 then 48 else 55))))
        else
          match i with
          | 0 => none
          | j + 1 =>
            tostring_loop_on oor sys hsp sg A j ((place + 1) % 2 ^ 32)
              (result.set i (to_char (tostring_digit_on oor sys hsp sg A place
                + (if 0 ≤ tostring_digit_on oor sys hsp sg A place
                    ∧ tostring_digit_on oor sys hsp sg A place ≤ 9 then 48 else 55))))
      else none := by
  cases i with
  | zero =>
    delta tostring_loop_on
    simp only [Nat.brecOn, Nat.rec_zero]
  | succ j =>
    delta tostring_loop_on
    simp only [Nat.brecOn]

/-- Where the conversion of the quotient is in range, the digit with the
conversion resolved is the digit. -/
theorem tostring_digit_on_eq (oor : Dbl → Int) (sys : numsys_t) (hsp sg : Bool) (A : Int)
    (place : Nat) (d : Int) (h : tostring_digit sys hsp sg A place = some d) :
    tostring_digit_on oor sys hsp sg A place = d := by
  unfold tostring_digit at h
  unfold tostring_digit_on double_to_ll_on
  simp only [] at h ⊢
  cases hc : double_to_ll (double_div
      (ll_to_double (if hsp = true ∧ sg = true ∧ sys.rep = TWOS_COMPL then A - 1 else A))
      (pow sys.base place)) with
  | none => rw [hc] at h; cases h
  | some t =>
    rw [hc] at h
    simp only [Option.some.injEq] at h
    exact h

/-- Where the loop of `numsys_tostring` is defined, the loop with the
conversion resolved gives the same buffer. -/
theorem tostring_loop_on_eq (oor : Dbl → Int) (sys : numsys_t) (hsp sg : Bool) (A : Int) :
    ∀ (i place : Nat) (result r : List Nat),
      tostring_loop sys hsp sg A i place result = some r →
        tostring_loop_on oor sys hsp sg A i place result = some r := by
  intro i
  induction i with
  | zero =>
    intro place result r h
    rw [tostring_loop_unfold] at h
    rw [tostring_loop_on_unfold]
    cases hd : tostring_digit sys hsp sg A place with
    | none => rw [hd] at h; simp at h
    | some d =>
      rw [hd] at h
      rw [tostring_digit_on_eq oor sys hsp sg A place d hd]
      exact h
  | succ j ih =>
    intro place result r h
    rw [tostring_loop_unfold] at h
    rw [tostring_loop_on_unfold]
    cases hd : tostring_digit sys hsp sg A place with
    | none => rw [hd] at h; simp at h
    | some d =>
      rw [hd] at h
      rw [tostring_digit_on_eq oor sys hsp sg A place d hd]
      simp only [] at h ⊢
      by_cases h1 : j + 1 < result.length
      · rw [if_pos h1] at h ⊢
        by_cases h2 : j + 1 = (if hsp then 1 else 0)
        · rw [if_pos h2] at h ⊢
          exact h
        · rw [if_neg h2] at h ⊢
          exact ih _ _ _ h
      · rw [if_neg h1] at h
        cases h

/-- Wherever `numsys_tostring` is defined, `numsys_tostring_on` agrees with
it, whatever the out-of-range conversion yields. -/
theorem numsys_tostring_on_eq (oor : Dbl → Int) (v : Int) (sys : numsys_t) (errno : Int)
    (r : Option (List Nat)) (e : Int) (h : numsys_tostring v sys errno = .ret r e) :
    numsys_tostring_on oor v sys errno = .ret r e := by
  unfold numsys_tostring at h
  unfold numsys_tostring_on
  by_cases hinv : (inval_base sys.base || inval_rep sys.rep) = true
  · rw [if_pos hinv] at h ⊢
    exact h
  rw [if_neg hinv] at h ⊢
  cases hnd : ndigits v sys.base errno with
  | undef => rw [hnd] at h; cases h
  | ret N e1 =>
    rw [hnd] at h
    simp only [] at h ⊢
    by_cases he : e1 > 0
    · rw [if_pos he] at h ⊢
      exact h
    rw [if_neg he] at h ⊢
    cases hl : tostring_loop sys
        (((decide (sys.rep = NEG_SIGN) && decide (v < 0)) || decide (sys.rep ≠ NEG_SIGN))
          && decide (sys.base ≠ 1)) (decide (v < 0)) |v|
        ((((N : Int) + ((if (((decide (sys.rep = NEG_SIGN) && decide (v < 0))
          || decide (sys.rep ≠ NEG_SIGN)) && decide (sys.base ≠ 1)) = true then 1 else 0 : Nat) : Int)
          - 1) % 2 ^ 32).toNat) 0
        (List.replicate ((N + (if (((decide (sys.rep = NEG_SIGN) && decide (v < 0))
          || decide (sys.rep ≠ NEG_SIGN)) && decide (sys.base ≠ 1)) = true then 1 else 0) + 1)
          % 2 ^ 32) 0) with
    | none => rw [hl] at h; cases h
    | some buf =>
      rw [hl] at h
      rw [tostring_loop_on_eq oor _ _ _ _ _ _ _ _ hl]
      exact h

/-- With a sign position the loop of `numsys_tostring`, the conversion
resolved, started at an index from 1 up inside the buffer, ends and keeps the
length of the buffer. -/
theorem tostring_loop_on_total (oor : Dbl → Int) (sys : numsys_t) (sg : Bool) (A : Int) :
    ∀ (i place : Nat) (result : List Nat), 1 ≤ i → i < result.length →
      ∃ r, tostring_loop_on oor sys true sg A i place result = some r
        ∧ r.length = result.length := by
  intro i
  induction i with
  | zero => intro place result h1; omega
  | succ j ih =>
    intro place result _ h2
    rw [tostring_loop_on_unfold, if_pos h2]
    by_cases hj : j + 1 = (if true = true then 1 else 0)
    · rw [if_pos hj]
      exact ⟨_, rfl, List.length_set ..⟩
    · rw [if_neg hj]
      simp only [if_true] at hj
      obtain ⟨r, hr, hlen⟩ := ih ((place + 1) % 2 ^ 32)
        (result.set (j + 1) (to_char (tostring_digit_on oor sys true sg A place
          + (if 0 ≤ tostring_digit_on oor sys true sg A place
              ∧ tostring_digit_on oor sys true sg A place ≤ 9 then 48 else 55))))
        (by omega) (by rw [List.length_set]; omega)
      refine ⟨r, hr, ?_⟩
      rw [hlen, List.length_set]

/-- For a base from 2 up and a magnitude below `2^63`, `ndigits` returns a
count between 1 and 63 and leaves `errno` as it was. -/
theorem ndigits_returns (b : Nat) (hb2 : 2 ≤ b) (v : Int) (hv : |v| ≤ 2 ^ 63 - 1) (errno : Int) :
    ∃ d, 1 ≤ d ∧ d ≤ 63 ∧ ndigits v (b : Int) errno = .ret d errno := by
  have hLm : LLONG_MIN = -9223372036854775808 := by decide
  have hvmin : v ≠ LLONG_MIN := by
    intro h
    rw [h, hLm] at hv
    simp at hv
  obtain ⟨n, hn⟩ : ∃ n : Nat, |v| = (n : Int) := ⟨|v|.toNat, by
    have := abs_nonneg v
    omega⟩
  obtain ⟨d, hd1, hloop, _, hlow⟩ := ndigits_loop_spec b hb2 (n + 1) n 0 (by omega)
  have hd63 : d ≤ 63 := by
    rcases hlow with h | h
    · omega
    · by_contra hcon
      have h63 : 63 ≤ d - 1 := by omega
      have h1 : 2 ^ 63 ≤ 2 ^ (d - 1) := Nat.pow_le_pow_right (by norm_num) h63
      have h2 : 2 ^ (d - 1) ≤ b ^ (d - 1) := Nat.pow_le_pow_left hb2 _
      have h3 : (n : Int) ≤ 2 ^ 63 - 1 := by rw [← hn]; exact hv
      have h4 : n < 2 ^ 63 := by
        have : (n : Int) < 2 ^ 63 := by omega
        exact_mod_cast this
      omega
  refine ⟨d, hd1, hd63, ?_⟩
  unfold ndigits
  rw [if_neg hvmin]
  simp only []
  rw [if_neg (by
    intro h
    have : (b : Int) = 1 := h
    omega)]
  rw [hn]
  simp only [Int.toNat_ofNat]
  rw [hloop]
  simp

/-- C12. For every base `b` in `[2,36]`, every scheme among `SIGN_PLACE`,
`ONES_COMPL` and `TWOS_COMPL` and every `v` with `|v| ≤ 2^63-1`,
`numsys_tostring` returns a string whose first character is the maximum digit
symbol of the base, the character `max_digit b` of digit value `b-1` (`'0'+b-1`
up to base 10, `'A'+b-11` from base 11), when `v < 0`, and `'0'` when `v ≥ 0`.
The sign position is written after the loop, so this holds whatever the digits
are, also where the quotient leaves the range of `long long` and its
conversion yields an arbitrary `oor`; and every string that the code returns
with the conversion in range is this one. -/
theorem tostring_sign_char (oor : Dbl → Int) (b : Nat) (hb2 : 2 ≤ b) (hb36 : b ≤ 36)
    (rep : Nat) (hrep : rep = SIGN_PLACE ∨ rep = ONES_COMPL ∨ rep = TWOS_COMPL)
    (v : Int) (hv : |v| ≤ 2 ^ 63 - 1) (errno : Int) (he : errno ≤ 0) :
    ∃ s, numsys_tostring_on oor v ⟨(b : Int), rep⟩ errno = .ret (some s) errno
      ∧ s.head? = some (if v < 0 then to_char (max_digit (b : Int)) else 48)
      ∧ digit_value (to_char (max_digit (b : Int))) = some (b - 1)
      ∧ to_char (max_digit (b : Int)) = (if b < 11 then b + 47 else b + 54)
      ∧ (∀ r e, numsys_tostring v ⟨(b : Int), rep⟩ errno = .ret r e → r = some s ∧ e = errno) := by
  have hne : rep ≠ NEG_SIGN := by
    rcases hrep with h | h | h <;> rw [h] <;> decide
  have hr : inval_rep rep = false := by
    rcases hrep with h | h | h <;> rw [h] <;> decide
  have hbase : inval_base (b : Int) = false := by
    simp [inval_base]; omega
  have hb1 : (b : Int) ≠ 1 := by omega
  have hmax : to_char (max_digit (b : Int)) = (if b < 11 then b + 47 else b + 54) := by
    interval_cases b <;> decide
  have hmax0 : to_char (max_digit (b : Int)) ≠ 0 := by
    rw [hmax]; split_ifs <;> omega
  obtain ⟨d, hd1, hd63, hnd⟩ := ndigits_returns b hb2 v hv errno
  obtain ⟨buf, hloop, hlen⟩ := tostring_loop_on_total oor ⟨(b : Int), rep⟩ (decide (v < 0)) |v|
    d 0 (List.replicate (d + 2) 0) hd1 (by rw [List.length_replicate]; omega)
  rw [List.length_replicate] at hlen
  obtain ⟨x, xs, rfl⟩ : ∃ x xs, buf = x :: xs := by
    cases buf with
    | nil => simp at hlen
    | cons x xs => exact ⟨x, xs, rfl⟩
  have hcall : numsys_tostring_on oor v ⟨(b : Int), rep⟩ errno
      = .ret (some (c_str ((x :: xs).set 0
          (if v < 0 then to_char (max_digit (b : Int)) else 48)))) errno := by
    unfold numsys_tostring_on
    have hinv : (inval_base (⟨(b : Int), rep⟩ : numsys_t).base
        || inval_rep (⟨(b : Int), rep⟩ : numsys_t).rep) = false := by
      simp [hbase, hr]
    rw [hinv]
    simp only [Bool.false_eq_true, if_false]
    rw [hnd]
    simp only []
    rw [if_neg (by omega)]
    have hHSP : (((decide (rep = NEG_SIGN) && decide (v < 0)) || decide (rep ≠ NEG_SIGN))
        && decide ((b : Int) ≠ 1)) = true := by simp [hne, hb1]
    rw [hHSP]
    simp only [if_true]
    have hsize : (d + 1 + 1) % 2 ^ 32 = d + 2 := by
      rw [Nat.mod_eq_of_lt]; omega
    have hstart : ((((d : Int) + ((1 : Nat) : Int) - 1) % 2 ^ 32).toNat) = d := by
      rw [Int.emod_eq_of_lt (by omega) (by omega)]
      omega
    rw [hsize, hstart, hloop]
    simp only []
    by_cases hneg : v < 0
    · simp [hneg, hne]
    · simp [hneg]
  refine ⟨_, hcall, ?_, (max_digit_value b (by omega) hb2).1, hmax, ?_⟩
  · by_cases hneg : v < 0
    · simp only [hneg, if_true, List.set_cons_zero, c_str]
      rw [List.takeWhile_cons_of_pos (by simpa using hmax0)]
      rfl
    · simp only [hneg, if_false, List.set_cons_zero, c_str]
      rfl
  · intro r e h
    have h2 := numsys_tostring_on_eq oor v ⟨(b : Int), rep⟩ errno r e h
    rw [hcall] at h2
    simp only [Outcome.ret.injEq] at h2
    exact ⟨h2.1.symm, h2.2.symm⟩

theorem tostring_sign_char_witness :
    ∃ s, numsys_tostring_on (fun _ => LLONG_MIN) (-5) ⟨((10 : Nat) : Int), SIGN_PLACE⟩ 0
        = .ret (some s) 0
      ∧ s.head? = some (if (-5 : Int) < 0 then to_char (max_digit ((10 : Nat) : Int)) else 48)
      ∧ digit_value (to_char (max_digit ((10 : Nat) : Int))) = some (10 - 1)
      ∧ to_char (max_digit ((10 : Nat) : Int)) = (if 10 < 11 then 10 + 47 else 10 + 54)
      ∧ (∀ r e, numsys_tostring (-5) ⟨((10 : Nat) : Int), SIGN_PLACE⟩ 0 = .ret r e
          → r = some s ∧ e = 0) :=
  tostring_sign_char (fun _ => LLONG_MIN) 10 (by decide) (by decide) SIGN_PLACE (Or.inl rfl)
    (-5) (by decide) 0 (by decide)

/-- With the out-of-range conversion yielding `LLONG_MIN`, as on x86-64: in
base 10 under `SIGN_PLACE` the values 5 and -5 are formatted as `"05"` and
`"95"`, and `2^63-1` as `"0922337203685477602/"`, whose digits are those of
the rounded quotients and whose last character comes from the out-of-range
conversion; under `ONES_COMPL` the value `-(2^63-1)` is formatted as
`"9077662796314522397H"`. -/
theorem tostring_on_at_llong_max :
    numsys_tostring_on (fun _ => LLONG_MIN) 5 ⟨10, SIGN_PLACE⟩ 0 = .ret (some (cstr "05")) 0
      ∧ numsys_tostring_on (fun _ => LLONG_MIN) (-5) ⟨10, SIGN_PLACE⟩ 0
          = .ret (some (cstr "95")) 0
      ∧ numsys_tostring_on (fun _ => LLONG_MIN) (2 ^ 63 - 1) ⟨10, SIGN_PLACE⟩ 0
          = .ret (some (cstr "0922337203685477602/")) 0
      ∧ numsys_tostring_on (fun _ => LLONG_MIN) (-(2 ^ 63 - 1)) ⟨10, ONES_COMPL⟩ 0
          = .ret (some (cstr "9077662796314522397H")) 0 := by
  decide!

end Numsys
